import Mathlib

/-!
Verification of the graph-construction and analysis code of the
llvm-cfg-to-json repository.

The main embedded functions are:

* `create_cfg_node`, `find_callee`, `create_cfg` from `llvm_cfg.py`
  (the module that exports the graph builder), together with a model of
  the networkx `DiGraph` operations the builder uses
  (`Cfg.addEdge`, `Cfg.addNodeWith`, `Cfg.inDegree`, ...);
* the dictionary-merging loop of `create_cfg`
  (`cfg_dict[mod][func] = func_data`) as `mergeJsons`;
* `get_longest_path` from `cfg_stats.py`.

Python exceptions are modelled by `Except String`: a `.error` value
corresponds to an uncaught exception carrying the description of the
raised error.  Python dictionaries are modelled as association lists in
insertion order, which is exactly the iteration order of Python dicts.
-/

set_option autoImplicit false

/-- Data attached to one basic block in the input JSON.  Every field is
a JSON value that may be absent (outer `Option`, a missing key) or
`null` (inner `none`).  The source reads these with plain indexing
(`data[...]`), which raises `KeyError` when the key is absent. -/
structure BlockData where
  start_line : Option (Option Int) := none
  end_line : Option (Option Int) := none
  size : Option (Option Int) := none
deriving DecidableEq, Repr

/-- One intraprocedural edge of the input JSON (`edge[...]` fields). -/
structure Edge where
  src : String
  dst : String
deriving DecidableEq, Repr

/-- One call site of the input JSON: `src` is the caller block label and
`dst` the callee function name. -/
structure Call where
  src : String
  dst : String
deriving DecidableEq, Repr

/-- One function record of the input JSON.  The optional list fields are
read with `.get(...)` followed by an `is None` check in the source, so a
single `Option` layer models both an absent key and a `null` value. -/
structure FuncRec where
  module : String
  nodes : Option (List (String × BlockData)) := none
  edges : Option (List Edge) := none
  calls : Option (List Call) := none
  indirect_calls : Option (List String) := none
  entry : Option String := none
  returns : Option (List String) := none
deriving DecidableEq, Repr

/-- The merged CFG dictionary: module name to (function name to record),
both levels in insertion order. -/
abbrev CfgDict := List (String × List (String × FuncRec))

/-- Attributes of one networkx node.  An outer `none` means the
attribute is not set on the node. -/
structure NodeAttrs where
  module : Option String := none
  function : Option String := none
  start_line : Option (Option Int) := none
  end_line : Option (Option Int) := none
  size : Option (Option Int) := none
  indirect_calls : Option Nat := none
deriving DecidableEq, Repr

/-- A networkx `DiGraph`: nodes with attributes and directed edges, each
kept in insertion order and without duplicates. -/
structure Cfg where
  nodes : List (String × NodeAttrs) := []
  edges : List (String × String) := []
deriving DecidableEq, Repr

deriving instance DecidableEq for Except

/-- Whether `n` is a node of the graph (`node in cfg`). -/
def Cfg.hasNode (g : Cfg) (n : String) : Bool :=
  g.nodes.any (fun p => p.1 = n)

/-- Look up the attribute record of a node. -/
def Cfg.attrsOf (g : Cfg) (n : String) : Option NodeAttrs :=
  (g.nodes.find? (fun p => p.1 = n)).map (fun p => p.2)

/-- Rewrite the attributes of node `n` in place (`cfg.nodes[n][k] = v`).
The node keys and their order are unchanged. -/
def Cfg.updateNode (g : Cfg) (n : String) (f : NodeAttrs → NodeAttrs) : Cfg :=
  { g with nodes := g.nodes.map (fun p => if p.1 = n then (p.1, f p.2) else p) }

/-- The networkx `add_node` call: update the attributes when the node
exists, otherwise append a fresh node whose attributes are `f` applied
to the empty attribute record. -/
def Cfg.addNodeWith (g : Cfg) (n : String) (f : NodeAttrs → NodeAttrs) : Cfg :=
  if g.hasNode n then g.updateNode n f
  else { g with nodes := g.nodes ++ [(n, f {})] }

/-- The networkx `add_node` call with no attributes. -/
def Cfg.addBareNode (g : Cfg) (n : String) : Cfg :=
  if g.hasNode n then g else { g with nodes := g.nodes ++ [(n, {})] }

/-- The networkx `add_edge` call: missing endpoints are created with
empty attributes, and the edge is appended only when it is not already
present. -/
def Cfg.addEdge (g : Cfg) (u v : String) : Cfg :=
  let g1 := g.addBareNode u
  let g2 := g1.addBareNode v
  if (u, v) ∈ g2.edges then g2 else { g2 with edges := g2.edges ++ [(u, v)] }

/-- Number of edges whose destination is `n` in an edge list. -/
def dstDeg (es : List (String × String)) (n : String) : Nat :=
  (es.filter (fun p => p.2 = n)).length

/-- The networkx `in_degree` call. -/
def Cfg.inDegree (g : Cfg) (n : String) : Nat :=
  dstDeg g.edges n

/-- Number of edges whose source is `n`. -/
def Cfg.outDegree (g : Cfg) (n : String) : Nat :=
  (g.edges.filter (fun p => p.1 = n)).length

/-- The node-identity function of `llvm_cfg.py`:
`return f-string mod.func.identifier`. -/
def create_cfg_node (mod func identifier : String) : String :=
  mod ++ "." ++ func ++ "." ++ identifier

/-- Inner loop of `find_callee`: first record of the module whose
function name equals the callee name. -/
def findInMod : List (String × FuncRec) → String → Option FuncRec
  | [], _ => none
  | (func, rec) :: rest, callee =>
      if callee = func then some rec else findInMod rest callee

/-- The `find_callee` helper of `llvm_cfg.py`: scan the modules in
order and return the first record whose function name matches.  The
source returns the empty dict on failure, modelled by `none`. -/
def find_callee : CfgDict → String → Option FuncRec
  | [], _ => none
  | (_, funcs) :: rest, callee =>
      match findInMod funcs callee with
      | some rec => some rec
      | none => find_callee rest callee

/-- Python truthiness of an optional integer: `None` and `0` are falsy. -/
def truthyInt : Option Int → Bool
  | none => false
  | some v => v ≠ 0

/-- The entry-point condition of `create_cfg`:
`func == entry_point and (entry_module is None or mod == entry_module)`. -/
def entryCond (entry_point : String) (entry_module : Option String)
    (mod func : String) : Bool :=
  func = entry_point &&
    (match entry_module with
     | none => true
     | some em => mod = em)

/-- Insertion into the `entry_nodes` set (Python `set.add`). -/
def insertEntry (en : List String) (n : String) : List String :=
  if n ∈ en then en else en ++ [n]

/-- Body of the block-adding loop of `create_cfg`: one iteration of
`for label, data in nodes.items()`.  The three metadata reads use plain
indexing and therefore raise `KeyError` on an absent key. -/
def processNode1 (mod func : String) (g : Cfg) (label : String)
    (data : BlockData) : Except String Cfg :=
  let node := create_cfg_node mod func label
  match data.start_line with
  | none => .error "KeyError: start_line"
  | some start_line =>
    match data.end_line with
    | none => .error "KeyError: end_line"
    | some end_line =>
      match data.size with
      | none => .error "KeyError: size"
      | some size =>
        let g := g.addNodeWith node
          (fun a => { a with module := some mod, function := some func })
        if truthyInt start_line && truthyInt end_line then
          .ok (g.updateNode node (fun a =>
            { a with start_line := some start_line,
                     end_line := some end_line, size := some size }))
        else
          .ok g

/-- The block-adding loop of `create_cfg`. -/
def processNodes (mod func : String) :
    List (String × BlockData) → Cfg → Except String Cfg
  | [], g => .ok g
  | (label, data) :: rest, g =>
      match processNode1 mod func g label data with
      | .error e => .error e
      | .ok g' => processNodes mod func rest g'

/-- The intraprocedural-edge loop of `create_cfg`: add each edge and
record the source as an entry node when the function matches the
requested entry point and the source has no incoming edge yet. -/
def processEdges (ep : String) (em : Option String) (mod func : String) :
    List Edge → Cfg × List String → Cfg × List String
  | [], s => s
  | e :: rest, (g, en) =>
      let src_node := create_cfg_node mod func e.src
      let dst_node := create_cfg_node mod func e.dst
      let g := g.addEdge src_node dst_node
      let en :=
        if entryCond ep em mod func && g.inDegree src_node = 0 then
          insertEntry en src_node
        else en
      processEdges ep em mod func rest (g, en)

/-- The return-edge loop of `create_cfg`: note that the source node is
built from `mod`, the module of the caller, not from the module recorded
in the callee record. -/
def processReturns (mod func caller callee : String) :
    List String → Cfg → Cfg
  | [], g => g
  | ret :: rest, g =>
      let src_node := create_cfg_node mod callee ret
      let dst_node := create_cfg_node mod func caller
      processReturns mod func caller callee rest (g.addEdge src_node dst_node)

/-- Body of the call loop of `create_cfg`: resolve the callee, skip it
when unknown or without an entry block, otherwise add the forward call
edge, the entry-node check and the backward return edges. -/
def processCall (d : CfgDict) (ep : String) (em : Option String)
    (mod func : String) (c : Call) (s : Cfg × List String) :
    Cfg × List String :=
  match find_callee d c.dst with
  | none => s
  | some cd =>
    match cd.entry with
    | none => s
    | some entryLabel =>
      let (g, en) := s
      let src_node := create_cfg_node mod func c.src
      let dst_node := create_cfg_node cd.module c.dst entryLabel
      let g := g.addEdge src_node dst_node
      let en :=
        if entryCond ep em mod func && g.inDegree src_node = 0 then
          insertEntry en src_node
        else en
      (processReturns mod func c.src c.dst (cd.returns.getD []) g, en)

/-- The call loop of `create_cfg`. -/
def processCalls (d : CfgDict) (ep : String) (em : Option String)
    (mod func : String) : List Call → Cfg × List String → Cfg × List String
  | [], s => s
  | c :: rest, s =>
      processCalls d ep em mod func rest (processCall d ep em mod func c s)

/-- Iteration order of `collections.Counter`: the distinct elements of a
list in order of first occurrence. -/
def dedupFirst : List String → List String
  | [] => []
  | x :: xs => x :: (dedupFirst xs).filter (fun y => y ≠ x)

/-- The indirect-call loop of `create_cfg`, iterating over the keys of
`Counter(indirect_calls)`: ensure the node exists and set (overwrite)
its `indirect_calls` attribute to the multiplicity of the label. -/
def processIndirectKeys (mod func : String) (ic : List String) :
    List String → Cfg → Cfg
  | [], g => g
  | n :: rest, g =>
      let node := create_cfg_node mod func n
      let g := g.addBareNode node
      let g := g.updateNode node
        (fun a => { a with indirect_calls := some (ic.count n) })
      processIndirectKeys mod func ic rest g

/-- The indirect-call counting step of `create_cfg`. -/
def processIndirect (mod func : String) (ic : List String) (g : Cfg) : Cfg :=
  processIndirectKeys mod func ic (dedupFirst ic) g

/-- Processing of one function record by `create_cfg`: blacklisted
functions are skipped; otherwise blocks, intraprocedural edges,
interprocedural edges and indirect-call counts are added in order. -/
def processFunc (d : CfgDict) (ep : String) (em : Option String)
    (bl : List String) (mod func : String) (rec : FuncRec)
    (s : Cfg × List String) : Except String (Cfg × List String) :=
  if func ∈ bl then .ok s
  else
    match processNodes mod func (rec.nodes.getD []) s.1 with
    | .error e => .error e
    | .ok g =>
      let s := processEdges ep em mod func (rec.edges.getD []) (g, s.2)
      let s := processCalls d ep em mod func (rec.calls.getD []) s
      .ok (processIndirect mod func (rec.indirect_calls.getD []) s.1, s.2)

/-- The inner `for func, func_dict in mod_dict.items()` loop. -/
def processFuncs (d : CfgDict) (ep : String) (em : Option String)
    (bl : List String) (mod : String) :
    List (String × FuncRec) → Cfg × List String →
      Except String (Cfg × List String)
  | [], s => .ok s
  | (func, rec) :: rest, s =>
      match processFunc d ep em bl mod func rec s with
      | .error e => .error e
      | .ok s' => processFuncs d ep em bl mod rest s'

/-- The outer `for mod, mod_dict in cfg_dict.items()` loop. -/
def processModules (d : CfgDict) (ep : String) (em : Option String)
    (bl : List String) :
    CfgDict → Cfg × List String → Except String (Cfg × List String)
  | [], s => .ok s
  | (mod, funcs) :: rest, s =>
      match processFuncs d ep em bl mod funcs s with
      | .error e => .error e
      | .ok s' => processModules d ep em bl rest s'

/-- The `create_cfg` function of `llvm_cfg.py`, starting from the merged
CFG dictionary (the file-reading loop is external input handling).  It
returns the graph together with the list of detected entry nodes. -/
def create_cfg (d : CfgDict) (entry_point : String)
    (entry_module : Option String) (blacklist : List String) :
    Except String (Cfg × List String) :=
  processModules d entry_point entry_module blacklist d ({}, [])

/-- Replacement of the value at a key of an association list, keeping
the position, or append when the key is absent (Python `d[k] = v`). -/
def updAssoc : List (String × FuncRec) → String → FuncRec →
    List (String × FuncRec)
  | [], f, r => [(f, r)]
  | (f', r') :: rest, f, r =>
      if f = f' then (f', r) :: rest else (f', r') :: updAssoc rest f r

/-- The statement `cfg_dict[mod][func] = func_data` on a
`defaultdict(dict)`. -/
def dictInsert : CfgDict → String → String → FuncRec → CfgDict
  | [], mod, f, r => [(mod, [(f, r)])]
  | (m', fl) :: rest, mod, f, r =>
      if mod = m' then (m', updAssoc fl f r) :: rest
      else (m', fl) :: dictInsert rest mod f r

/-- The dictionary-building loop of `create_cfg`: each input file
contributes its stem as module name and its parsed function records. -/
def mergeJsons (jsons : List (String × List (String × FuncRec))) : CfgDict :=
  jsons.foldl
    (fun d p => p.2.foldl (fun d q => dictInsert d p.1 q.1 q.2) d) []

/-- The `create_cfg` function applied to a list of already-parsed input
files, including the dictionary-building loop. -/
def create_cfg_from_jsons (jsons : List (String × List (String × FuncRec)))
    (entry_point : String) (entry_module : Option String)
    (blacklist : List String) : Except String (Cfg × List String) :=
  create_cfg (mergeJsons jsons) entry_point entry_module blacklist

/-! The analyzer: `get_longest_path` of `cfg_stats.py`. -/

/-- Successor nodes of `n`, in edge-insertion order. -/
def successors (g : Cfg) (n : String) : List String :=
  (g.edges.filter (fun p => p.1 = n)).map (fun p => p.2)

/-- Depth-first enumeration of the simple paths from `cur` to `target`
avoiding the visited nodes, as produced by `networkx.all_simple_paths`.
The fuel argument only bounds the recursion; any value larger than the
number of nodes is exact, because a simple path never repeats a node. -/
def simplePathsAux (g : Cfg) (target : String) :
    Nat → String → List String → List (List String)
  | 0, _, _ => []
  | fuel + 1, cur, visited =>
      if cur = target then [[cur]]
      else
        ((successors g cur).filter (fun s => s ∉ visited)).foldr
          (fun nxt acc =>
            ((simplePathsAux g target fuel nxt (visited ++ [nxt])).map
              (fun p => cur :: p)) ++ acc)
          []

/-- The `networkx.all_simple_paths` call: all simple paths from `source`
to `target` as lists of nodes. -/
def all_simple_paths (g : Cfg) (source target : String) :
    List (List String) :=
  simplePathsAux g target (g.nodes.length + 1) source [source]

/-- Sink nodes of the graph: `out_degree == 0`, in node order. -/
def sinksOf (g : Cfg) : List String :=
  (g.nodes.map (fun p => p.1)).filter (fun n => g.outDegree n = 0)

/-- The Python `max(paths, key=len)` call on a nonempty list: the first
path of maximal length. -/
def maxByLen (p : List String) (ps : List (List String)) : List String :=
  ps.foldl (fun best q => if q.length > best.length then q else best) p

/-- The `get_longest_path` function of `cfg_stats.py`: collect the
sinks, enumerate the simple paths from the entry node to every sink and
return the length of the longest one plus one.  `max` on an empty
sequence raises `ValueError`, and `all_simple_paths` raises
`NodeNotFound` when the source node is not in the graph. -/
def get_longest_path (g : Cfg) (node : String) : Except String Nat :=
  match sinksOf g with
  | [] => .error "ValueError: max arg is an empty sequence"
  | sink :: sinks =>
    if ¬ g.hasNode node then .error "NodeNotFound"
    else
      match (sink :: sinks).flatMap (fun s => all_simple_paths g node s) with
      | [] => .error "ValueError: max arg is an empty sequence"
      | p :: ps => .ok ((maxByLen p ps).length + 1)

/-! Event traces.  The edge insertions performed by `create_cfg` are
described by a flat list of events, each carrying the inserted edge, the
entry-point flag of the function being processed and the kind of edge
(intraprocedural, call or return).  The bridging lemmas below prove that
the edge list and the entry-node list of `create_cfg` are exactly the
result of folding these events. -/

/-- Kind of an inserted edge. -/
inductive EvKind where
  | intra
  | call
  | ret
deriving DecidableEq, Repr

/-- One edge-insertion event of the builder. -/
structure Ev where
  src : String
  dst : String
  chk : Bool
  kind : EvKind
deriving DecidableEq, Repr

/-- Insertion of an edge into an edge list without duplication. -/
def addEdgePair (es : List (String × String)) (e : String × String) :
    List (String × String) :=
  if e ∈ es then es else es ++ [e]

/-- One step of the event fold: insert the edge, then record the source
as an entry node when the flag is set and the source has in-degree zero
in the updated edge list. -/
def evStep (s : List (String × String) × List String) (e : Ev) :
    List (String × String) × List String :=
  let es := addEdgePair s.1 (e.src, e.dst)
  let en :=
    if e.chk && dstDeg es e.src = 0 then insertEntry s.2 e.src else s.2
  (es, en)

/-- Folding a list of events. -/
def evFold (s : List (String × String) × List String) (l : List Ev) :
    List (String × String) × List String :=
  l.foldl evStep s

/-- Events generated by the intraprocedural-edge loop. -/
def edgeEvs (ep : String) (em : Option String) (mod func : String)
    (l : List Edge) : List Ev :=
  l.map (fun e =>
    ⟨create_cfg_node mod func e.src, create_cfg_node mod func e.dst,
     entryCond ep em mod func, .intra⟩)

/-- Events generated by one call site: nothing for an unresolvable
callee, otherwise the call edge followed by the return edges. -/
def callEvs1 (d : CfgDict) (ep : String) (em : Option String)
    (mod func : String) (c : Call) : List Ev :=
  match find_callee d c.dst with
  | none => []
  | some cd =>
    match cd.entry with
    | none => []
    | some entryLabel =>
      ⟨create_cfg_node mod func c.src,
       create_cfg_node cd.module c.dst entryLabel,
       entryCond ep em mod func, .call⟩ ::
      (cd.returns.getD []).map (fun ret =>
        ⟨create_cfg_node mod c.dst ret, create_cfg_node mod func c.src,
         false, .ret⟩)

/-- Events generated by the call loop. -/
def callEvs (d : CfgDict) (ep : String) (em : Option String)
    (mod func : String) : List Call → List Ev
  | [] => []
  | c :: rest => callEvs1 d ep em mod func c ++ callEvs d ep em mod func rest

/-- Events generated by one function record. -/
def funcEvs (d : CfgDict) (ep : String) (em : Option String)
    (bl : List String) (mod func : String) (rec : FuncRec) : List Ev :=
  if func ∈ bl then []
  else
    edgeEvs ep em mod func (rec.edges.getD []) ++
      callEvs d ep em mod func (rec.calls.getD [])

/-- Events generated by one module. -/
def funcsEvs (d : CfgDict) (ep : String) (em : Option String)
    (bl : List String) (mod : String) : List (String × FuncRec) → List Ev
  | [] => []
  | (func, rec) :: rest =>
      funcEvs d ep em bl mod func rec ++ funcsEvs d ep em bl mod rest

/-- Events generated by the whole builder run. -/
def modsEvs (d : CfgDict) (ep : String) (em : Option String)
    (bl : List String) : CfgDict → List Ev
  | [] => []
  | (mod, funcs) :: rest =>
      funcsEvs d ep em bl mod funcs ++ modsEvs d ep em bl rest

/-- All events of `create_cfg` on dictionary `d`. -/
def allEvs (d : CfgDict) (ep : String) (em : Option String)
    (bl : List String) : List Ev :=
  modsEvs d ep em bl d

/-! Further derived definitions used in the theorem statements. -/

/-- Flattened view of the indirect-call attribute of a node: `none` when
the node is absent or carries no such attribute, `some k` when the node
carries the attribute with value `k`. -/
def icFlat (g : Cfg) (n : String) : Option Nat :=
  match g.attrsOf n with
  | none => none
  | some a => a.indirect_calls

/-- Last value written for key `n` in an assignment list. -/
def lastAssign : List (String × Nat) → String → Option Nat
  | [], _ => none
  | w :: ws, n =>
      match lastAssign ws n with
      | some v => some v
      | none => if w.1 = n then some w.2 else none

/-- Indirect-call attribute assignments performed for one record: one
write per distinct label of the `indirect_calls` list, in first
occurrence order, carrying the multiplicity of the label. -/
def funcAsg (bl : List String) (mod func : String) (rec : FuncRec) :
    List (String × Nat) :=
  if func ∈ bl then []
  else
    (dedupFirst (rec.indirect_calls.getD [])).map
      (fun n => (create_cfg_node mod func n,
        (rec.indirect_calls.getD []).count n))

/-- Indirect-call assignments of one module. -/
def funcsAsg (bl : List String) (mod : String) :
    List (String × FuncRec) → List (String × Nat)
  | [] => []
  | (func, rec) :: rest => funcAsg bl mod func rec ++ funcsAsg bl mod rest

/-- Indirect-call assignments of a whole builder run. -/
def modsAsg (bl : List String) : CfgDict → List (String × Nat)
  | [] => []
  | (mod, funcs) :: rest => funcsAsg bl mod funcs ++ modsAsg bl rest

/-- The forward call edges of the builder, read off the event trace. -/
def callEdgePairs (d : CfgDict) (ep : String) (em : Option String)
    (bl : List String) : List (String × String) :=
  ((allEvs d ep em bl).filter (fun e => e.kind = EvKind.call)).map
    (fun e => (e.src, e.dst))

/-- Lookup view of a record: the fields consulted when the record is
found as a callee (its module, its entry block, and its return labels
after null defaulting). -/
def rView (r : FuncRec) : String × Option String × List String :=
  (r.module, r.entry, r.returns.getD [])

/-- Records with the same callee-lookup view. -/
def REquiv (r r' : FuncRec) : Prop := rView r = rView r'

/-- Records that the builder processes identically: same module and
entry, and the same value of every optional list field after the
null-to-empty defaulting. -/
def NEquiv (r r' : FuncRec) : Prop :=
  r.module = r'.module ∧ r.entry = r'.entry ∧
  r.nodes.getD [] = r'.nodes.getD [] ∧
  r.edges.getD [] = r'.edges.getD [] ∧
  r.calls.getD [] = r'.calls.getD [] ∧
  r.indirect_calls.getD [] = r'.indirect_calls.getD [] ∧
  r.returns.getD [] = r'.returns.getD []

/-- Pointwise lookup equivalence of two dictionaries. -/
def DictREquiv (d d' : CfgDict) : Prop :=
  List.Forall₂
    (fun p q => p.1 = q.1 ∧
      List.Forall₂ (fun a b => a.1 = b.1 ∧ REquiv a.2 b.2) p.2 q.2) d d'

/-- Pointwise processing equivalence of two dictionaries. -/
def DictNEquiv (d d' : CfgDict) : Prop :=
  List.Forall₂
    (fun p q => p.1 = q.1 ∧
      List.Forall₂ (fun a b => a.1 = b.1 ∧ NEquiv a.2 b.2) p.2 q.2) d d'

/-- Defaulting of the optional list fields of a record to the empty
list, leaving the module and entry fields unchanged. -/
def normalizeRec (r : FuncRec) : FuncRec :=
  { module := r.module, nodes := some (r.nodes.getD []),
    edges := some (r.edges.getD []), calls := some (r.calls.getD []),
    indirect_calls := some (r.indirect_calls.getD []), entry := r.entry,
    returns := some (r.returns.getD []) }

/-- Defaulting of every record of a dictionary. -/
def normalizeDict (d : CfgDict) : CfgDict :=
  d.map (fun p => (p.1, p.2.map (fun q => (q.1, normalizeRec q.2))))

/-- Block data carrying all three metadata keys (their values may still
be null). -/
def blockKeyed (b : BlockData) : Prop :=
  b.start_line.isSome ∧ b.end_line.isSome ∧ b.size.isSome

/-- Record collections whose every block datum carries the metadata
keys. -/
def dictKeyed (d : CfgDict) : Prop :=
  ∀ p ∈ d, ∀ q ∈ p.2, ∀ b ∈ (q.2 : FuncRec).nodes.getD [], blockKeyed b.2

/-- A callee name whose resolution fails or yields a record without an
entry block (the `entry not in callee_dict` test of the source). -/
def unresolvable (d : CfgDict) (callee : String) : Prop :=
  match find_callee d callee with
  | none => True
  | some r => r.entry = none

/-- All dictionary writes of the merging loop, flattened in order. -/
def writesOf (jsons : List (String × List (String × FuncRec))) :
    List (String × String × FuncRec) :=
  (jsons.map (fun p => p.2.map (fun q => (p.1, q.1, q.2)))).flatten

/-- The merging loop as a fold over the flattened writes. -/
def writesFold (ws : List (String × String × FuncRec)) (d : CfgDict) :
    CfgDict :=
  ws.foldl (fun d w => dictInsert d w.1 w.2.1 w.2.2) d

/-- Last record written for a module and function pair. -/
def lastWrite : List (String × String × FuncRec) → String → String →
    Option FuncRec
  | [], _, _ => none
  | w :: ws, m, f =>
      match lastWrite ws m f with
      | some r => some r
      | none => if w.1 = m ∧ w.2.1 = f then some w.2.2 else none

/-- Lookup of the function list of a module. -/
def modLookup (d : CfgDict) (m : String) :
    Option (List (String × FuncRec)) :=
  (d.find? (fun p => p.1 = m)).map (fun p => p.2)

/-- Lookup of a record by module and function name. -/
def funcLookup (d : CfgDict) (m f : String) : Option FuncRec :=
  match modLookup d m with
  | none => none
  | some fl => (fl.find? (fun p => p.1 = f)).map (fun p => p.2)

/-- Key skeleton of a dictionary: the module keys, each with its
function keys, in order. -/
def skeleton (d : CfgDict) : List (String × List String) :=
  d.map (fun p => (p.1, p.2.map (fun q => q.1)))

/-- Strings not containing the separator character of
`create_cfg_node`. -/
def noDot (s : String) : Prop := ('.' : Char) ∉ s.data


/-! Concrete inputs used by the claim theorems. -/

/-- Record with designated entry block `a` and one edge from `b` to
`c`. -/
def c1rec : FuncRec :=
  { module := "m", entry := some "a", edges := some [⟨"b", "c"⟩] }

/-- Record collection with a single function `main`. -/
def c1dict : CfgDict := [("m", [("main", c1rec)])]

/-- The graph `create_cfg` builds from `c1dict`. -/
def c1graph : Cfg :=
  { nodes := [("m.main.b", {}), ("m.main.c", {})],
    edges := [("m.main.b", "m.main.c")] }

/-- Caller record: function `g` in module `m1` with one call from block
`C` to function `f`. -/
def crossRecG : FuncRec := { module := "m1", calls := some [⟨"C", "f"⟩] }

/-- Callee record: function `f` in module `m2` with entry block `A` and
one return block `B`. -/
def crossRecF : FuncRec :=
  { module := "m2", entry := some "A", returns := some ["B"] }

/-- A cross-module call: `m1.g` calls `m2.f`. -/
def crossDict : CfgDict :=
  [("m1", [("g", crossRecG)]), ("m2", [("f", crossRecF)])]

/-- The graph `create_cfg` builds from `crossDict`. -/
def crossGraph : Cfg :=
  { nodes := [("m1.g.C", {}), ("m2.f.A", {}), ("m1.f.B", {})],
    edges := [("m1.g.C", "m2.f.A"), ("m1.f.B", "m1.g.C")] }

/-- A two-node graph with a single edge from `a` to its sink `b`. -/
def pathGraph : Cfg :=
  { nodes := [("a", {}), ("b", {})], edges := [("a", "b")] }

/-- A two-node cycle: no node is a sink. -/
def cycleGraph : Cfg :=
  { nodes := [("a", {}), ("b", {})], edges := [("a", "b"), ("b", "a")] }

/-- A single node with a self loop: no sink. -/
def loopGraph : Cfg := { nodes := [("a", {})], edges := [("a", "a")] }

/-- Record listing block label `d` twice in its indirect calls. -/
def c6rec1 : FuncRec := { module := "a", indirect_calls := some ["d", "d"] }

/-- Record listing block label `d` once in its indirect calls. -/
def c6rec2 : FuncRec := { module := "a.b", indirect_calls := some ["d"] }

/-- Two records whose indirect-call labels map to the same node
`a.b.c.d` through the dot separator. -/
def c6dict : CfgDict := [("a", [("b.c", c6rec1)]), ("a.b", [("c", c6rec2)])]

/-- The graph `create_cfg` builds from `c6dict`. -/
def c6graph : Cfg :=
  { nodes := [("a.b.c.d", { indirect_calls := some 1 })], edges := [] }

/-- Record with one block whose data dictionary has no metadata keys. -/
def c8rec : FuncRec :=
  { module := "m", nodes := some [("b", ({} : BlockData))] }

/-- Collection whose single block datum is missing `start_line`. -/
def c8dict : CfgDict := [("m", [("main", c8rec)])]

/-- Record with every optional field absent. -/
def c8okRec : FuncRec := { module := "m" }

/-- Collection whose single record has every optional field absent. -/
def c8okDict : CfgDict := [("m", [("f", c8okRec)])]

/-- Record with a single call to the unknown function `nope`. -/
def c5rec : FuncRec :=
  { module := "m", entry := some "e", calls := some [⟨"X", "nope"⟩] }

/-- Collection whose only call targets an unknown function. -/
def c5dict : CfgDict := [("m", [("g", c5rec)])]

/-- Structural invariant of graphs built by the builder: node keys are
unique and every edge endpoint is a node. -/
def GInv (g : Cfg) : Prop :=
  (g.nodes.map Prod.fst).Nodup ∧
  ∀ p ∈ g.edges, g.hasNode p.1 = true ∧ g.hasNode p.2 = true

/-- Lookup in a function-record association list. -/
def lookupA (fl : List (String × FuncRec)) (f : String) : Option FuncRec :=
  (fl.find? (fun p => p.1 = f)).map (fun p => p.2)

/-- Uniqueness of the dictionary keys at both levels. -/
def dictNodup (d : CfgDict) : Prop :=
  (d.map Prod.fst).Nodup ∧ ∀ p ∈ d, (p.2.map Prod.fst).Nodup

/-! Basic lemmas on the graph operations. -/

theorem edges_updateNode (g : Cfg) (n : String) (f : NodeAttrs → NodeAttrs) :
    (g.updateNode n f).edges = g.edges := rfl

theorem keys_updateNode (g : Cfg) (n : String) (f : NodeAttrs → NodeAttrs) :
    (g.updateNode n f).nodes.map Prod.fst = g.nodes.map Prod.fst := by
  simp only [Cfg.updateNode, List.map_map]
  refine List.map_congr_left (fun p _ => ?_)
  by_cases h : p.1 = n <;> simp [h]

theorem any_fst_update (l : List (String × NodeAttrs)) (n x : String)
    (f : NodeAttrs → NodeAttrs) :
    ((l.map (fun p => if p.1 = n then (p.1, f p.2) else p)).any
      (fun p => p.1 = x)) = l.any (fun p => p.1 = x) := by
  induction l with
  | nil => rfl
  | cons h t ih =>
    by_cases hh : h.1 = n <;> simp [hh, ih]

theorem hasNode_updateNode (g : Cfg) (n x : String)
    (f : NodeAttrs → NodeAttrs) :
    (g.updateNode n f).hasNode x = g.hasNode x := by
  simp only [Cfg.hasNode, Cfg.updateNode]
  exact any_fst_update g.nodes n x f

theorem edges_addNodeWith (g : Cfg) (n : String) (f : NodeAttrs → NodeAttrs) :
    (g.addNodeWith n f).edges = g.edges := by
  unfold Cfg.addNodeWith
  split <;> rfl

theorem edges_addBareNode (g : Cfg) (n : String) :
    (g.addBareNode n).edges = g.edges := by
  unfold Cfg.addBareNode
  split <;> rfl

theorem edges_addEdge (g : Cfg) (u v : String) :
    (g.addEdge u v).edges = addEdgePair g.edges (u, v) := by
  simp only [Cfg.addEdge, edges_addBareNode, addEdgePair]
  by_cases hmem : (u, v) ∈ g.edges <;> simp [hmem, edges_addBareNode]

theorem any_fst_snoc (l : List (String × NodeAttrs)) (n x : String)
    (a : NodeAttrs) :
    ((l ++ [(n, a)]).any (fun p => p.1 = x)) =
      (l.any (fun p => p.1 = x) || x = n) := by
  simp [List.any_append, eq_comm]

theorem hasNode_addBareNode (g : Cfg) (n x : String) :
    (g.addBareNode n).hasNode x = (g.hasNode x || x = n) := by
  unfold Cfg.addBareNode
  by_cases h : g.hasNode n
  · by_cases hx : x = n
    · subst hx
      simp [h]
    · simp [h, hx]
  · simp only [h, Bool.false_eq_true, if_neg, not_false_iff]
    simp only [Cfg.hasNode]
    exact any_fst_snoc g.nodes n x {}

theorem hasNode_addNodeWith (g : Cfg) (n x : String)
    (f : NodeAttrs → NodeAttrs) :
    (g.addNodeWith n f).hasNode x = (g.hasNode x || x = n) := by
  unfold Cfg.addNodeWith
  by_cases h : g.hasNode n
  · by_cases hx : x = n
    · subst hx
      simp [h, hasNode_updateNode]
    · simp [h, hx, hasNode_updateNode]
  · simp only [h, Bool.false_eq_true, if_neg, not_false_iff]
    simp only [Cfg.hasNode]
    exact any_fst_snoc g.nodes n x (f {})

theorem hasNode_mk_edges (nodes : List (String × NodeAttrs))
    (es : List (String × String)) (x : String) :
    (Cfg.mk nodes es).hasNode x = (Cfg.mk nodes []).hasNode x := rfl

theorem hasNode_addEdge (g : Cfg) (u v x : String) :
    (g.addEdge u v).hasNode x = (g.hasNode x || x = u || x = v) := by
  have base : ((g.addBareNode u).addBareNode v).hasNode x =
      (g.hasNode x || x = u || x = v) := by
    rw [hasNode_addBareNode, hasNode_addBareNode]
  simp only [Cfg.addEdge]
  by_cases hmem : (u, v) ∈ ((g.addBareNode u).addBareNode v).edges
  · simpa [hmem] using base
  · simp only [hmem, if_neg, not_false_iff]
    rw [← base]
    rfl

theorem mem_addEdgePair (es : List (String × String))
    (e x : String × String) :
    x ∈ addEdgePair es e ↔ x ∈ es ∨ x = e := by
  unfold addEdgePair
  split
  · constructor
    · exact fun h => Or.inl h
    · rintro (h | rfl) <;> assumption
  · simp

theorem mem_insertEntry (en : List String) (m n : String) :
    n ∈ insertEntry en m ↔ n ∈ en ∨ n = m := by
  unfold insertEntry
  split
  · constructor
    · exact fun h => Or.inl h
    · rintro (h | rfl) <;> assumption
  · simp

theorem dstDeg_eq_zero (es : List (String × String)) (n : String) :
    dstDeg es n = 0 ↔ ∀ p ∈ es, p.2 ≠ n := by
  unfold dstDeg
  rw [List.length_eq_zero, List.filter_eq_nil_iff]
  simp

theorem inDegree_def (g : Cfg) (n : String) :
    g.inDegree n = dstDeg g.edges n := rfl

/-! Bridging lemmas: the edge list and entry list of the builder are the
fold of the event trace. -/

theorem evFold_cons (s : List (String × String) × List String) (ev : Ev)
    (l : List Ev) : evFold s (ev :: l) = evFold (evStep s ev) l := rfl

theorem evFold_append (s : List (String × String) × List String)
    (a b : List Ev) : evFold s (a ++ b) = evFold (evFold s a) b := by
  unfold evFold
  rw [List.foldl_append]

theorem processNode1_edges (mod func : String) (g : Cfg) (label : String)
    (data : BlockData) (g' : Cfg)
    (h : processNode1 mod func g label data = .ok g') :
    g'.edges = g.edges := by
  unfold processNode1 at h
  cases hs : data.start_line with
  | none => rw [hs] at h; exact Except.noConfusion h
  | some sl =>
    cases he : data.end_line with
    | none => rw [hs, he] at h; exact Except.noConfusion h
    | some el =>
      cases hz : data.size with
      | none => rw [hs, he, hz] at h; exact Except.noConfusion h
      | some sz =>
        rw [hs, he, hz] at h
        dsimp only at h
        by_cases hc : (truthyInt sl && truthyInt el) = true
        · rw [if_pos hc] at h
          cases h
          rw [edges_updateNode, edges_addNodeWith]
        · rw [if_neg hc] at h
          cases h
          rw [edges_addNodeWith]

theorem processNodes_edges (mod func : String) (l : List (String × BlockData)) :
    ∀ g g', processNodes mod func l g = .ok g' → g'.edges = g.edges := by
  induction l with
  | nil =>
    intro g g' h
    cases h
    rfl
  | cons p rest ih =>
    intro g g' h
    unfold processNodes at h
    cases hp : processNode1 mod func g p.1 p.2 with
    | error e => rw [hp] at h; exact Except.noConfusion h
    | ok g1 =>
      rw [hp] at h
      rw [ih g1 g' h, processNode1_edges mod func g p.1 p.2 g1 hp]

theorem processEdges_spec (ep : String) (em : Option String)
    (mod func : String) (l : List Edge) :
    ∀ g en,
      ((processEdges ep em mod func l (g, en)).1.edges,
       (processEdges ep em mod func l (g, en)).2) =
        evFold (g.edges, en) (edgeEvs ep em mod func l) := by
  induction l with
  | nil => intro g en; rfl
  | cons e rest ih =>
    intro g en
    have hstep : processEdges ep em mod func (e :: rest) (g, en) =
        processEdges ep em mod func rest
          (g.addEdge (create_cfg_node mod func e.src)
            (create_cfg_node mod func e.dst),
           if entryCond ep em mod func &&
               (g.addEdge (create_cfg_node mod func e.src)
                 (create_cfg_node mod func e.dst)).inDegree
                 (create_cfg_node mod func e.src) = 0 then
             insertEntry en (create_cfg_node mod func e.src)
           else en) := rfl
    rw [hstep, ih]
    rw [show edgeEvs ep em mod func (e :: rest) =
      (⟨create_cfg_node mod func e.src, create_cfg_node mod func e.dst,
        entryCond ep em mod func, .intra⟩ : Ev) ::
        edgeEvs ep em mod func rest from rfl]
    rw [evFold_cons]
    congr 1
    simp only [evStep, inDegree_def, edges_addEdge]

theorem processReturns_spec (mod func caller callee : String)
    (rl : List String) :
    ∀ g en,
      ((processReturns mod func caller callee rl g).edges, en) =
        evFold (g.edges, en)
          (rl.map (fun ret =>
            (⟨create_cfg_node mod callee ret,
              create_cfg_node mod func caller, false, .ret⟩ : Ev))) := by
  induction rl with
  | nil => intro g en; rfl
  | cons r rest ih =>
    intro g en
    have hstep : processReturns mod func caller callee (r :: rest) g =
        processReturns mod func caller callee rest
          (g.addEdge (create_cfg_node mod callee r)
            (create_cfg_node mod func caller)) := rfl
    rw [hstep, ih]
    rw [List.map_cons, evFold_cons]
    congr 1
    simp only [evStep, inDegree_def, edges_addEdge, Bool.false_and,
      Bool.false_eq_true, if_false]

theorem processCall_spec (d : CfgDict) (ep : String) (em : Option String)
    (mod func : String) (c : Call) (g : Cfg) (en : List String) :
    ((processCall d ep em mod func c (g, en)).1.edges,
     (processCall d ep em mod func c (g, en)).2) =
      evFold (g.edges, en) (callEvs1 d ep em mod func c) := by
  cases hf : find_callee d c.dst with
  | none =>
    simp only [processCall, callEvs1, hf]
    rfl
  | some cd =>
    cases hent : cd.entry with
    | none =>
      simp only [processCall, callEvs1, hf, hent]
      rfl
    | some entryLabel =>
      simp only [processCall, callEvs1, hf, hent]
      rw [evFold_cons]
      rw [processReturns_spec mod func c.src c.dst (cd.returns.getD [])]
      congr 1
      simp only [evStep, inDegree_def, edges_addEdge]

theorem processCalls_spec (d : CfgDict) (ep : String) (em : Option String)
    (mod func : String) (l : List Call) :
    ∀ g en,
      ((processCalls d ep em mod func l (g, en)).1.edges,
       (processCalls d ep em mod func l (g, en)).2) =
        evFold (g.edges, en) (callEvs d ep em mod func l) := by
  induction l with
  | nil => intro g en; rfl
  | cons c rest ih =>
    intro g en
    have hstep : processCalls d ep em mod func (c :: rest) (g, en) =
        processCalls d ep em mod func rest
          (processCall d ep em mod func c (g, en)) := rfl
    rcases hp : processCall d ep em mod func c (g, en) with ⟨g1, en1⟩
    have h1 := processCall_spec d ep em mod func c g en
    rw [hp] at h1
    rw [hstep, hp]
    rw [show callEvs d ep em mod func (c :: rest) =
      callEvs1 d ep em mod func c ++ callEvs d ep em mod func rest from rfl]
    rw [evFold_append, ← h1]
    exact ih g1 en1

theorem processIndirectKeys_edges (mod func : String) (ic : List String)
    (keys : List String) :
    ∀ g, (processIndirectKeys mod func ic keys g).edges = g.edges := by
  induction keys with
  | nil => intro g; rfl
  | cons k rest ih =>
    intro g
    have hstep : processIndirectKeys mod func ic (k :: rest) g =
        processIndirectKeys mod func ic rest
          ((g.addBareNode (create_cfg_node mod func k)).updateNode
            (create_cfg_node mod func k)
            (fun a => { a with indirect_calls := some (ic.count k) })) := rfl
    rw [hstep, ih, edges_updateNode, edges_addBareNode]

theorem processIndirect_edges (mod func : String) (ic : List String)
    (g : Cfg) : (processIndirect mod func ic g).edges = g.edges :=
  processIndirectKeys_edges mod func ic (dedupFirst ic) g

theorem processFunc_spec (d : CfgDict) (ep : String) (em : Option String)
    (bl : List String) (mod func : String) (rec : FuncRec)
    (s s' : Cfg × List String)
    (h : processFunc d ep em bl mod func rec s = .ok s') :
    (s'.1.edges, s'.2) =
      evFold (s.1.edges, s.2) (funcEvs d ep em bl mod func rec) := by
  unfold processFunc at h
  unfold funcEvs
  by_cases hbl : func ∈ bl
  · rw [if_pos hbl] at h
    cases h
    rw [if_pos hbl]
    rfl
  · rw [if_neg hbl] at h
    rw [if_neg hbl]
    cases hn : processNodes mod func (rec.nodes.getD []) s.1 with
    | error e => rw [hn] at h; exact Except.noConfusion h
    | ok g1 =>
      rw [hn] at h
      dsimp only at h
      rcases hpe : processEdges ep em mod func (rec.edges.getD []) (g1, s.2)
        with ⟨g2, en2⟩
      rcases hpc : processCalls d ep em mod func (rec.calls.getD [])
        (g2, en2) with ⟨g3, en3⟩
      rw [hpe, hpc] at h
      cases h
      rw [evFold_append]
      have h2 := processEdges_spec ep em mod func (rec.edges.getD []) g1 s.2
      rw [hpe, processNodes_edges mod func (rec.nodes.getD []) s.1 g1 hn]
        at h2
      have h3 := processCalls_spec d ep em mod func (rec.calls.getD []) g2 en2
      rw [hpc] at h3
      rw [← h2, ← h3]
      simp only [processIndirect_edges]

theorem processFuncs_spec (d : CfgDict) (ep : String) (em : Option String)
    (bl : List String) (mod : String) (l : List (String × FuncRec)) :
    ∀ s s', processFuncs d ep em bl mod l s = .ok s' →
      (s'.1.edges, s'.2) =
        evFold (s.1.edges, s.2) (funcsEvs d ep em bl mod l) := by
  induction l with
  | nil =>
    intro s s' h
    cases h
    rfl
  | cons p rest ih =>
    intro s s' h
    unfold processFuncs at h
    cases hf : processFunc d ep em bl mod p.1 p.2 s with
    | error e => rw [hf] at h; exact Except.noConfusion h
    | ok s1 =>
      rw [hf] at h
      rw [show funcsEvs d ep em bl mod (p :: rest) =
        funcEvs d ep em bl mod p.1 p.2 ++ funcsEvs d ep em bl mod rest by
          obtain ⟨f, r⟩ := p; rfl]
      rw [evFold_append, ← processFunc_spec d ep em bl mod p.1 p.2 s s1 hf]
      exact ih s1 s' h

theorem processModules_spec (d : CfgDict) (ep : String) (em : Option String)
    (bl : List String) (l : CfgDict) :
    ∀ s s', processModules d ep em bl l s = .ok s' →
      (s'.1.edges, s'.2) =
        evFold (s.1.edges, s.2) (modsEvs d ep em bl l) := by
  induction l with
  | nil =>
    intro s s' h
    cases h
    rfl
  | cons p rest ih =>
    intro s s' h
    unfold processModules at h
    cases hf : processFuncs d ep em bl p.1 p.2 s with
    | error e => rw [hf] at h; exact Except.noConfusion h
    | ok s1 =>
      rw [hf] at h
      rw [show modsEvs d ep em bl (p :: rest) =
        funcsEvs d ep em bl p.1 p.2 ++ modsEvs d ep em bl rest by
          obtain ⟨m, fl⟩ := p; rfl]
      rw [evFold_append, ← processFuncs_spec d ep em bl p.1 p.2 s s1 hf]
      exact ih s1 s' h

/-- The central bridging lemma: on a successful run, the edge list and
the entry-node list of `create_cfg` are exactly the fold of the event
trace starting from the empty state. -/
theorem create_cfg_spec (d : CfgDict) (ep : String) (em : Option String)
    (bl : List String) (g : Cfg) (en : List String)
    (h : create_cfg d ep em bl = .ok (g, en)) :
    (g.edges, en) = evFold ([], []) (allEvs d ep em bl) :=
  processModules_spec d ep em bl d ({}, []) (g, en) h

/-! Characterizations of the event fold. -/

theorem evFold_edges_mem (l : List Ev) :
    ∀ es en x, x ∈ (evFold (es, en) l).1 ↔
      x ∈ es ∨ ∃ e ∈ l, x = (e.src, e.dst) := by
  induction l with
  | nil =>
    intro es en x
    simp [evFold]
  | cons ev rest ih =>
    intro es en x
    rw [evFold_cons]
    have hstep : evStep (es, en) ev =
        (addEdgePair es (ev.src, ev.dst),
         if ev.chk && dstDeg (addEdgePair es (ev.src, ev.dst)) ev.src = 0
         then insertEntry en ev.src else en) := rfl
    rw [hstep, ih]
    simp only [mem_addEdgePair, List.mem_cons]
    constructor
    · rintro ((h | h) | ⟨e, he, rfl⟩)
      · exact Or.inl h
      · exact Or.inr ⟨ev, Or.inl rfl, h⟩
      · exact Or.inr ⟨e, Or.inr he, rfl⟩
    · rintro (h | ⟨e, (rfl | he), h⟩)
      · exact Or.inl (Or.inl h)
      · exact Or.inl (Or.inr h)
      · exact Or.inr ⟨e, he, h⟩

theorem evFold_entries_mem (l : List Ev) :
    ∀ es en n, n ∈ (evFold (es, en) l).2 ↔ n ∈ en ∨
      ∃ pre e post, l = pre ++ e :: post ∧ e.src = n ∧ e.chk = true ∧
        e.dst ≠ n ∧ (∀ p ∈ es, p.2 ≠ n) ∧ (∀ q ∈ pre, q.dst ≠ n) := by
  induction l with
  | nil =>
    intro es en n
    simp only [evFold, List.foldl_nil]
    constructor
    · exact fun h => Or.inl h
    · rintro (h | ⟨pre, e, post, habs, _⟩)
      · exact h
      · cases pre <;> simp at habs
  | cons ev rest ih =>
    intro es en n
    rw [evFold_cons]
    have hstep : evStep (es, en) ev =
        (addEdgePair es (ev.src, ev.dst),
         if ev.chk && dstDeg (addEdgePair es (ev.src, ev.dst)) ev.src = 0
         then insertEntry en ev.src else en) := rfl
    rw [hstep, ih]
    constructor
    · rintro (hen | ⟨pre, e, post, hsplit, hsrc, hchk, hdst, hes, hpre⟩)
      · by_cases hc :
          (ev.chk && dstDeg (addEdgePair es (ev.src, ev.dst)) ev.src = 0)
            = true
        · rw [if_pos hc] at hen
          rcases (mem_insertEntry en ev.src n).1 hen with h | rfl
          · exact Or.inl h
          · right
            rcases Bool.and_eq_true_iff.1 hc with ⟨h1, h2⟩
            have hz := (dstDeg_eq_zero _ ev.src).1 (of_decide_eq_true h2)
            refine ⟨[], ev, rest, rfl, rfl, h1, ?_, ?_, by simp⟩
            · exact hz (ev.src, ev.dst)
                ((mem_addEdgePair es (ev.src, ev.dst) _).2 (Or.inr rfl))
            · intro p hp
              exact hz p
                ((mem_addEdgePair es (ev.src, ev.dst) p).2 (Or.inl hp))
        · rw [if_neg hc] at hen
          exact Or.inl hen
      · right
        refine ⟨ev :: pre, e, post, by rw [hsplit, List.cons_append], hsrc,
          hchk, hdst, ?_, ?_⟩
        · intro p hp
          exact hes p ((mem_addEdgePair es (ev.src, ev.dst) p).2 (Or.inl hp))
        · intro q hq
          rcases List.mem_cons.1 hq with rfl | hq'
          · exact hes (q.src, q.dst)
              ((mem_addEdgePair es (q.src, q.dst) _).2 (Or.inr rfl))
          · exact hpre q hq'
    · rintro (hen | ⟨pre, e, post, hsplit, hsrc, hchk, hdst, hes, hpre⟩)
      · left
        by_cases hc :
          (ev.chk && dstDeg (addEdgePair es (ev.src, ev.dst)) ev.src = 0)
            = true
        · rw [if_pos hc]
          exact (mem_insertEntry en ev.src n).2 (Or.inl hen)
        · rw [if_neg hc]
          exact hen
      · cases pre with
        | nil =>
          rw [List.nil_append] at hsplit
          injection hsplit with h1 h2
          subst h1
          subst h2
          left
          have hz : dstDeg (addEdgePair es (ev.src, ev.dst)) ev.src = 0 := by
            rw [dstDeg_eq_zero]
            intro p hp
            rcases (mem_addEdgePair es (ev.src, ev.dst) p).1 hp with h | rfl
            · rw [hsrc]
              exact hes p h
            · rw [hsrc]
              exact hdst
          have hc :
              (ev.chk && dstDeg (addEdgePair es (ev.src, ev.dst)) ev.src = 0)
                = true := by
            rw [hchk, hz]
            simp
          rw [if_pos hc]
          exact (mem_insertEntry en ev.src n).2 (Or.inr hsrc.symm)
        | cons q pre' =>
          rw [List.cons_append] at hsplit
          injection hsplit with h1 h2
          subst h1
          right
          refine ⟨pre', e, post, h2, hsrc, hchk, hdst, ?_, ?_⟩
          · intro p hp
            rcases (mem_addEdgePair es (ev.src, ev.dst) p).1 hp with h | rfl
            · exact hes p h
            · exact hpre ev (List.mem_cons_self ev pre')
          · intro q' hq'
            exact hpre q' (List.mem_cons_of_mem ev hq')

/-! Shape of the flagged events: an event whose entry flag is set comes
from a function whose name is the requested entry point, in a module
matching the requested entry module, and its source node is built from
the source block of one of the intraprocedural edges or calls of that
function record. -/

theorem entryCond_true (ep : String) (em : Option String) (mod func : String)
    (h : entryCond ep em mod func = true) :
    func = ep ∧ (em = none ∨ em = some mod) := by
  unfold entryCond at h
  rcases Bool.and_eq_true_iff.1 h with ⟨h1, h2⟩
  refine ⟨of_decide_eq_true h1, ?_⟩
  cases em with
  | none => exact Or.inl rfl
  | some m => exact Or.inr (by rw [of_decide_eq_true h2])

theorem callEvs_chk_shape (d : CfgDict) (ep : String) (em : Option String)
    (mod func : String) (l : List Call) :
    ∀ e ∈ callEvs d ep em mod func l, e.chk = true →
      e.chk = entryCond ep em mod func ∧
      ∃ lbl, e.src = create_cfg_node mod func lbl ∧
        lbl ∈ l.map Call.src := by
  induction l with
  | nil => intro e he; cases he
  | cons c rest ih =>
    intro e he hchk
    rw [show callEvs d ep em mod func (c :: rest) =
      callEvs1 d ep em mod func c ++ callEvs d ep em mod func rest from rfl]
      at he
    rcases List.mem_append.1 he with h1 | h2
    · unfold callEvs1 at h1
      cases hf : find_callee d c.dst with
      | none =>
        rw [hf] at h1
        exact absurd h1 (List.not_mem_nil e)
      | some cd =>
        rw [hf] at h1
        dsimp only at h1
        cases hent : cd.entry with
        | none =>
          rw [hent] at h1
          exact absurd h1 (List.not_mem_nil e)
        | some entryLabel =>
          rw [hent] at h1
          dsimp only at h1
          rcases List.mem_cons.1 h1 with rfl | hret
          · exact ⟨rfl, c.src, rfl, List.mem_map_of_mem Call.src
              (List.mem_cons_self c rest)⟩
          · rcases List.mem_map.1 hret with ⟨r, _, rfl⟩
            cases hchk
    · rcases ih e h2 hchk with ⟨hc, lbl, hsrc, hmem⟩
      exact ⟨hc, lbl, hsrc, by
        rw [List.map_cons]
        exact List.mem_cons_of_mem c.src hmem⟩

theorem funcEvs_chk_shape (d : CfgDict) (ep : String) (em : Option String)
    (bl : List String) (mod func : String) (rec : FuncRec) :
    ∀ e ∈ funcEvs d ep em bl mod func rec, e.chk = true →
      entryCond ep em mod func = true ∧
      ∃ lbl, e.src = create_cfg_node mod func lbl ∧
        (lbl ∈ (rec.edges.getD []).map Edge.src ∨
         lbl ∈ (rec.calls.getD []).map Call.src) := by
  intro e he hchk
  unfold funcEvs at he
  by_cases hbl : func ∈ bl
  · rw [if_pos hbl] at he
    cases he
  · rw [if_neg hbl] at he
    rcases List.mem_append.1 he with h1 | h2
    · unfold edgeEvs at h1
      rcases List.mem_map.1 h1 with ⟨e0, he0, rfl⟩
      refine ⟨hchk, e0.src, rfl, Or.inl (List.mem_map_of_mem Edge.src he0)⟩
    · rcases callEvs_chk_shape d ep em mod func (rec.calls.getD []) e h2 hchk
        with ⟨hc, lbl, hsrc, hmem⟩
      rw [hc] at hchk
      exact ⟨hchk, lbl, hsrc, Or.inr hmem⟩

theorem funcsEvs_chk_shape (d : CfgDict) (ep : String) (em : Option String)
    (bl : List String) (mod : String) (l : List (String × FuncRec)) :
    ∀ e ∈ funcsEvs d ep em bl mod l, e.chk = true →
      ∃ func rec, (func, rec) ∈ l ∧ entryCond ep em mod func = true ∧
        ∃ lbl, e.src = create_cfg_node mod func lbl ∧
          (lbl ∈ (rec.edges.getD []).map Edge.src ∨
           lbl ∈ (rec.calls.getD []).map Call.src) := by
  induction l with
  | nil => intro e he; cases he
  | cons p rest ih =>
    intro e he hchk
    rw [show funcsEvs d ep em bl mod (p :: rest) =
      funcEvs d ep em bl mod p.1 p.2 ++ funcsEvs d ep em bl mod rest by
        obtain ⟨f, r⟩ := p; rfl] at he
    rcases List.mem_append.1 he with h1 | h2
    · rcases funcEvs_chk_shape d ep em bl mod p.1 p.2 e h1 hchk
        with ⟨hc, lbl, hsrc, hmem⟩
      exact ⟨p.1, p.2, by
        rw [show (p.1, p.2) = p from rfl]
        exact List.mem_cons_self p rest, hc, lbl, hsrc, hmem⟩
    · rcases ih e h2 hchk with ⟨func, rec, hmem, hc, rest'⟩
      exact ⟨func, rec, List.mem_cons_of_mem p hmem, hc, rest'⟩

theorem modsEvs_chk_shape (d : CfgDict) (ep : String) (em : Option String)
    (bl : List String) (l : CfgDict) :
    ∀ e ∈ modsEvs d ep em bl l, e.chk = true →
      ∃ mod funcs func rec, (mod, funcs) ∈ l ∧ (func, rec) ∈ funcs ∧
        entryCond ep em mod func = true ∧
        ∃ lbl, e.src = create_cfg_node mod func lbl ∧
          (lbl ∈ (rec.edges.getD []).map Edge.src ∨
           lbl ∈ (rec.calls.getD []).map Call.src) := by
  induction l with
  | nil => intro e he; cases he
  | cons p rest ih =>
    intro e he hchk
    rw [show modsEvs d ep em bl (p :: rest) =
      funcsEvs d ep em bl p.1 p.2 ++ modsEvs d ep em bl rest by
        obtain ⟨m, fl⟩ := p; rfl] at he
    rcases List.mem_append.1 he with h1 | h2
    · rcases funcsEvs_chk_shape d ep em bl p.1 p.2 e h1 hchk
        with ⟨func, rec, hmem, hc, rest'⟩
      exact ⟨p.1, p.2, func, rec, by
        rw [show (p.1, p.2) = p from rfl]
        exact List.mem_cons_self p rest, hmem, hc, rest'⟩
    · rcases ih e h2 hchk with ⟨mod, funcs, func, rec, hm, hmem, hc, rest'⟩
      exact ⟨mod, funcs, func, rec, List.mem_cons_of_mem p hm, hmem, hc,
        rest'⟩

/-! Claim C1. -/

/-- C1 counterexample: the claim, as stated, is false on the code.  For
the record collection `c1dict`, whose single function `main` has
designated entry block `a` and one intraprocedural edge from `b` to `c`,
the entry-node set returned by `create_cfg` is exactly the node built
from block `b`, although `b` is not the designated `entry` block `a` of
that function: `create_cfg` selects edge sources of in-degree zero, not
the designated entry block. -/
theorem c1_counterexample :
    (create_cfg c1dict "main" none []).map (fun p => p.2) =
      .ok ["m.main.b"] ∧
    c1rec.entry = some "a" ∧
    "m.main.b" ≠ create_cfg_node "m" "main" "a" :=
  ⟨by rfl, rfl, by decide⟩

/-- C1 (amended): a block is placed in the entry-node set returned by
`create_cfg` if and only if it is the source of one of the processed
intraprocedural or call edges of a function whose name equals the
requested entry point, with the module matching the requested entry
module when one is given (the `chk` flag of the event trace), and no
edge processed up to and including that one has the block as its
destination.  The designated `entry` block of the record plays no role.
In particular (second conjunct) every returned entry node belongs to a
function record whose name equals the entry point and whose module
matches, and is built from the source block of one of its edges or
calls. -/
theorem c1_entry_nodes_characterization (d : CfgDict) (ep : String)
    (em : Option String) (bl : List String) (g : Cfg) (en : List String)
    (h : create_cfg d ep em bl = .ok (g, en)) (n : String) :
    (n ∈ en ↔ ∃ pre e post, allEvs d ep em bl = pre ++ e :: post ∧
        e.src = n ∧ e.chk = true ∧ e.dst ≠ n ∧ ∀ q ∈ pre, q.dst ≠ n) ∧
    (n ∈ en → ∃ mod funcs func rec lbl, (mod, funcs) ∈ d ∧
        (func, rec) ∈ funcs ∧ func = ep ∧ (em = none ∨ em = some mod) ∧
        n = create_cfg_node mod func lbl ∧
        (lbl ∈ (rec.edges.getD []).map Edge.src ∨
         lbl ∈ (rec.calls.getD []).map Call.src)) := by
  have hs := create_cfg_spec d ep em bl g en h
  have hen : en = (evFold ([], []) (allEvs d ep em bl)).2 :=
    congrArg Prod.snd hs
  constructor
  · rw [hen, evFold_entries_mem]
    constructor
    · rintro (h0 | ⟨pre, e, post, hsp, h1, h2, h3, _, h5⟩)
      · exact absurd h0 (List.not_mem_nil n)
      · exact ⟨pre, e, post, hsp, h1, h2, h3, h5⟩
    · rintro ⟨pre, e, post, hsp, h1, h2, h3, h5⟩
      exact Or.inr ⟨pre, e, post, hsp, h1, h2, h3,
        fun p hp => absurd hp (List.not_mem_nil p), h5⟩
  · intro hn
    rw [hen, evFold_entries_mem] at hn
    rcases hn with h0 | ⟨pre, e, post, hsp, h1, h2, _, _, _⟩
    · exact absurd h0 (List.not_mem_nil n)
    · have hev : e ∈ allEvs d ep em bl := by
        rw [hsp]
        exact List.mem_append_right pre (List.mem_cons_self e post)
      rcases modsEvs_chk_shape d ep em bl d e hev h2 with
        ⟨mod, funcs, func, rec, hm, hmem, hc, lbl, hsrc, hlbl⟩
      rcases entryCond_true ep em mod func hc with ⟨hfeq, hmod⟩
      exact ⟨mod, funcs, func, rec, lbl, hm, hmem, hfeq, hmod,
        by rw [← h1, hsrc], hlbl⟩

/-- C1 witness: the amended characterization applied to the concrete
record collection `c1dict` and the node built from block `b`. -/
theorem c1_witness :
    (("m.main.b" ∈ ["m.main.b"]) ↔ ∃ pre e post,
        allEvs c1dict "main" none [] = pre ++ e :: post ∧
        e.src = "m.main.b" ∧ e.chk = true ∧ e.dst ≠ "m.main.b" ∧
        ∀ q ∈ pre, q.dst ≠ "m.main.b") ∧
    (("m.main.b" ∈ ["m.main.b"]) → ∃ mod funcs func rec lbl,
        (mod, funcs) ∈ c1dict ∧ (func, rec) ∈ funcs ∧ func = "main" ∧
        ((none : Option String) = none ∨ (none : Option String) = some mod) ∧
        "m.main.b" = create_cfg_node mod func lbl ∧
        (lbl ∈ (rec.edges.getD []).map Edge.src ∨
         lbl ∈ (rec.calls.getD []).map Call.src)) :=
  c1_entry_nodes_characterization c1dict "main" none [] c1graph
    ["m.main.b"] (by rfl) "m.main.b"

/-! Claim C2: the return-edge source node. -/

/-- C2: the code contradicts the claim.  On the cross-module call of
`crossDict`, where `m1.g` calls `m2.f` from block `C` and `f` returns
from block `B`, the builder adds the return edge with source node
`m1.f.B` (built with the module of the caller), not `m2.f.B` (the
module recorded in the callee record), although the call edge itself
correctly targets `m2.f.A`.  The return-edge source is therefore a
phantom node that is not a block of `f` in its own module. -/
theorem c2_return_edge_uses_caller_module :
    (create_cfg crossDict "main" none []).map (fun p => p.1.edges) =
      .ok [("m1.g.C", "m2.f.A"), ("m1.f.B", "m1.g.C")] ∧
    (("m2.f.B", "m1.g.C") ∉
      [("m1.g.C", "m2.f.A"), ("m1.f.B", "m1.g.C")]) ∧
    crossRecF.module = "m2" ∧ crossRecF.returns = some ["B"] :=
  ⟨by rfl, by decide, rfl, rfl⟩

/-! Claim C4: call-edge destinations are designated entry blocks. -/

theorem findInMod_mem (fl : List (String × FuncRec)) (c : String)
    (r : FuncRec) (h : findInMod fl c = some r) : (c, r) ∈ fl := by
  induction fl with
  | nil => cases h
  | cons p rest ih =>
    unfold findInMod at h
    by_cases hc : c = p.1
    · rw [if_pos hc] at h
      injection h with h'
      have hpr : (c, r) = p := by rw [hc, ← h']
      rw [hpr]
      exact List.mem_cons_self p rest
    · rw [if_neg hc] at h
      exact List.mem_cons_of_mem p (ih h)

theorem find_callee_mem (d : CfgDict) (c : String) (r : FuncRec)
    (h : find_callee d c = some r) :
    ∃ m fl, (m, fl) ∈ d ∧ (c, r) ∈ fl := by
  induction d with
  | nil => cases h
  | cons p rest ih =>
    unfold find_callee at h
    cases hf : findInMod p.2 c with
    | some fr =>
      rw [hf] at h
      injection h with h'
      refine ⟨p.1, p.2, ?_, h' ▸ findInMod_mem p.2 c fr hf⟩
      have hpr : (p.1, p.2) = p := rfl
      rw [hpr]
      exact List.mem_cons_self p rest
    | none =>
      rw [hf] at h
      rcases ih h with ⟨m, fl, hm, hmem⟩
      exact ⟨m, fl, List.mem_cons_of_mem p hm, hmem⟩

theorem callEvs_call_shape (d : CfgDict) (ep : String) (em : Option String)
    (mod func : String) (l : List Call) :
    ∀ e ∈ callEvs d ep em mod func l, e.kind = EvKind.call →
      ∃ fname r lbl, find_callee d fname = some r ∧ r.entry = some lbl ∧
        e.dst = create_cfg_node r.module fname lbl := by
  induction l with
  | nil => intro e he; cases he
  | cons c rest ih =>
    intro e he hk
    rw [show callEvs d ep em mod func (c :: rest) =
      callEvs1 d ep em mod func c ++ callEvs d ep em mod func rest from rfl]
      at he
    rcases List.mem_append.1 he with h1 | h2
    · unfold callEvs1 at h1
      cases hf : find_callee d c.dst with
      | none =>
        rw [hf] at h1
        exact absurd h1 (List.not_mem_nil e)
      | some cd =>
        rw [hf] at h1
        dsimp only at h1
        cases hent : cd.entry with
        | none =>
          rw [hent] at h1
          exact absurd h1 (List.not_mem_nil e)
        | some entryLabel =>
          rw [hent] at h1
          dsimp only at h1
          rcases List.mem_cons.1 h1 with rfl | hret
          · exact ⟨c.dst, cd, entryLabel, hf, hent, rfl⟩
          · rcases List.mem_map.1 hret with ⟨ret, _, rfl⟩
            cases hk
    · exact ih e h2 hk

theorem funcEvs_call_shape (d : CfgDict) (ep : String) (em : Option String)
    (bl : List String) (mod func : String) (rec : FuncRec) :
    ∀ e ∈ funcEvs d ep em bl mod func rec, e.kind = EvKind.call →
      ∃ fname r lbl, find_callee d fname = some r ∧ r.entry = some lbl ∧
        e.dst = create_cfg_node r.module fname lbl := by
  intro e he hk
  unfold funcEvs at he
  by_cases hbl : func ∈ bl
  · rw [if_pos hbl] at he
    cases he
  · rw [if_neg hbl] at he
    rcases List.mem_append.1 he with h1 | h2
    · unfold edgeEvs at h1
      rcases List.mem_map.1 h1 with ⟨e0, _, rfl⟩
      cases hk
    · exact callEvs_call_shape d ep em mod func (rec.calls.getD []) e h2 hk

theorem funcsEvs_call_shape (d : CfgDict) (ep : String) (em : Option String)
    (bl : List String) (mod : String) (l : List (String × FuncRec)) :
    ∀ e ∈ funcsEvs d ep em bl mod l, e.kind = EvKind.call →
      ∃ fname r lbl, find_callee d fname = some r ∧ r.entry = some lbl ∧
        e.dst = create_cfg_node r.module fname lbl := by
  induction l with
  | nil => intro e he; cases he
  | cons q qrest ih =>
    intro e he hk
    rw [show funcsEvs d ep em bl mod (q :: qrest) =
      funcEvs d ep em bl mod q.1 q.2 ++ funcsEvs d ep em bl mod qrest by
        obtain ⟨f, r⟩ := q; rfl] at he
    rcases List.mem_append.1 he with h1 | h2
    · exact funcEvs_call_shape d ep em bl mod q.1 q.2 e h1 hk
    · exact ih e h2 hk

theorem modsEvs_call_shape (d : CfgDict) (ep : String) (em : Option String)
    (bl : List String) (l : CfgDict) :
    ∀ e ∈ modsEvs d ep em bl l, e.kind = EvKind.call →
      ∃ fname r lbl, find_callee d fname = some r ∧ r.entry = some lbl ∧
        e.dst = create_cfg_node r.module fname lbl := by
  induction l with
  | nil => intro e he; cases he
  | cons p rest ih =>
    intro e he hk
    rw [show modsEvs d ep em bl (p :: rest) =
      funcsEvs d ep em bl p.1 p.2 ++ modsEvs d ep em bl rest by
        obtain ⟨m, fl⟩ := p; rfl] at he
    rcases List.mem_append.1 he with h1 | h2
    · exact funcsEvs_call_shape d ep em bl p.1 p.2 e h1 hk
    · exact ih e h2 hk

/-- C4: every call edge of the builder is present in the built graph
and its destination is the node built from the module, name, and
designated `entry` block of the record `find_callee` resolves for the
callee, a record that occurs in the input collection. -/
theorem c4_call_edges_target_entry (d : CfgDict) (ep : String)
    (em : Option String) (bl : List String) (g : Cfg) (en : List String)
    (p : String × String) (h : create_cfg d ep em bl = .ok (g, en))
    (hp : p ∈ callEdgePairs d ep em bl) :
    p ∈ g.edges ∧
    ∃ mod funcs fname r lbl, (mod, funcs) ∈ d ∧ (fname, r) ∈ funcs ∧
      find_callee d fname = some r ∧ r.entry = some lbl ∧
      p.2 = create_cfg_node r.module fname lbl := by
  unfold callEdgePairs at hp
  rcases List.mem_map.1 hp with ⟨e, hef, rfl⟩
  rcases List.mem_filter.1 hef with ⟨he, hkind⟩
  have hk : e.kind = EvKind.call := of_decide_eq_true hkind
  constructor
  · have hs := create_cfg_spec d ep em bl g en h
    have hedges : g.edges = (evFold ([], []) (allEvs d ep em bl)).1 :=
      congrArg Prod.fst hs
    rw [hedges]
    exact (evFold_edges_mem (allEvs d ep em bl) [] [] (e.src, e.dst)).2
      (Or.inr ⟨e, he, rfl⟩)
  · rcases modsEvs_call_shape d ep em bl d e he hk with
      ⟨fname, r, lbl, hfc, hent, hdst⟩
    rcases find_callee_mem d fname r hfc with ⟨m, fl, hm, hmem⟩
    exact ⟨m, fl, fname, r, lbl, hm, hmem, hfc, hent, hdst⟩

/-- C4 witness: the call edge of the cross-module example targets the
designated entry block `A` of the callee record of `f`. -/
theorem c4_witness :
    (("m1.g.C", "m2.f.A") ∈ crossGraph.edges) ∧
    ∃ mod funcs fname r lbl, (mod, funcs) ∈ crossDict ∧
      (fname, r) ∈ funcs ∧ find_callee crossDict fname = some r ∧
      r.entry = some lbl ∧
      ("m1.g.C", "m2.f.A").2 = create_cfg_node r.module fname lbl :=
  c4_call_edges_target_entry crossDict "main" none [] crossGraph []
    ("m1.g.C", "m2.f.A") (by rfl) (by decide)

/-! Claim C3: the longest-path statistic. -/

/-- C3: the code contradicts the claim.  On the two-node graph with the
single edge from the entry `a` to the sink `b`, the only simple path
from the entry to a sink is the two-node path `a, b`, so the claim asks
for the statistic 2 (number of nodes on the path); `get_longest_path`
returns 3, because the Python `len` of a path already counts its nodes
and the code still adds one. -/
theorem c3_longest_path_off_by_one :
    sinksOf pathGraph = ["b"] ∧
    all_simple_paths pathGraph "a" "b" = [["a", "b"]] ∧
    get_longest_path pathGraph "a" = .ok 3 :=
  ⟨rfl, by rfl, by rfl⟩

/-! Claim C9: reachable subgraph without sinks. -/

/-- C9 counterexample: the claim, as stated, is false on the code.  On
the two-node cycle, every node has an outgoing edge, and the
longest-path computation raises `ValueError` (the Python `max` of an
empty sequence) instead of returning a degenerate result. -/
theorem c9_counterexample :
    get_longest_path cycleGraph "a" =
      .error "ValueError: max arg is an empty sequence" := by rfl

/-- C9 (amended): whenever every node of the graph has at least one
outgoing edge, so that the graph has no sink, `get_longest_path` raises
`ValueError` (the `max` of an empty sequence), rather than returning an
empty or degenerate value. -/
theorem c9_no_sink_raises (g : Cfg) (x : String)
    (h : ∀ n ∈ g.nodes.map Prod.fst, g.outDegree n ≠ 0) :
    get_longest_path g x =
      .error "ValueError: max arg is an empty sequence" := by
  unfold get_longest_path
  have hs : sinksOf g = [] := by
    unfold sinksOf
    rw [List.filter_eq_nil_iff]
    intro n hn
    simp only [decide_eq_true_eq]
    exact h n hn
  rw [hs]

/-- C9 witness: the amended statement applied to the one-node graph
with a self loop. -/
theorem c9_witness :
    (∀ n ∈ loopGraph.nodes.map Prod.fst, loopGraph.outDegree n ≠ 0) ∧
    get_longest_path loopGraph "a" =
      .error "ValueError: max arg is an empty sequence" :=
  ⟨by decide, c9_no_sink_raises loopGraph "a" (by decide)⟩

/-! Claim C10: injectivity of node identities. -/

/-- C10 counterexample: the claim, as stated, is false on the code.
The two distinct triples produce the same node string `a.b.c.d`, so two
different basic blocks are merged into one node when the components
contain the separator. -/
theorem c10_counterexample :
    create_cfg_node "a" "b.c" "d" = create_cfg_node "a.b" "c" "d" ∧
    (("a", "b.c", "d") ≠ (("a.b", "c", "d") : String × String × String)) :=
  ⟨by decide, by decide⟩

theorem sep_split_inj (as : List Char) :
    ∀ cs bs ds : List Char, ('.' : Char) ∉ as → ('.' : Char) ∉ cs →
      as ++ '.' :: bs = cs ++ '.' :: ds → as = cs ∧ bs = ds := by
  induction as with
  | nil =>
    intro cs bs ds _ hc h
    cases cs with
    | nil =>
      rw [List.nil_append, List.nil_append] at h
      injection h with _ h2
      exact ⟨rfl, h2⟩
    | cons c cs' =>
      rw [List.nil_append, List.cons_append] at h
      injection h with h1 _
      exact absurd (h1 ▸ List.mem_cons_self c cs') hc
  | cons a as' ih =>
    intro cs bs ds ha hc h
    cases cs with
    | nil =>
      rw [List.cons_append, List.nil_append] at h
      injection h with h1 _
      exact absurd (h1 ▸ List.mem_cons_self a as') ha
    | cons c cs' =>
      rw [List.cons_append, List.cons_append] at h
      injection h with h1 h2
      have ha' : ('.' : Char) ∉ as' := fun hx => ha (List.mem_cons_of_mem a hx)
      have hc' : ('.' : Char) ∉ cs' := fun hx => hc (List.mem_cons_of_mem c hx)
      rcases ih cs' bs ds ha' hc' h2 with ⟨hl, hr⟩
      exact ⟨by rw [h1, hl], hr⟩

/-- C10 (amended): on triples whose components do not contain the `.`
separator, the node-identity function is injective: equal node strings
force equal modules, functions and labels.  The counterexample above
shows that this fails as soon as a component contains the separator. -/
theorem c10_injective_on_dot_free (m f l m' f' l' : String)
    (hm : noDot m) (hf : noDot f) (hl : noDot l)
    (hm' : noDot m') (hf' : noDot f') (hl' : noDot l')
    (h : create_cfg_node m f l = create_cfg_node m' f' l') :
    m = m' ∧ f = f' ∧ l = l' := by
  unfold create_cfg_node at h
  have hd := congrArg String.data h
  simp only [String.data_append] at hd
  simp only [List.append_assoc, List.singleton_append] at hd
  rcases sep_split_inj m.data m'.data _ _ hm hm' hd with ⟨h1, h2⟩
  rcases sep_split_inj f.data f'.data _ _ hf hf' h2 with ⟨h3, h4⟩
  exact ⟨String.ext h1, String.ext h3, String.ext h4⟩

/-- C10 witness: the amended injectivity applied to concrete dot-free
components. -/
theorem c10_witness :
    (noDot "m1" ∧ noDot "fn" ∧ noDot "bb") ∧
    ("m1" = "m1" ∧ "fn" = "fn" ∧ "bb" = "bb") :=
  ⟨⟨by unfold noDot; decide, by unfold noDot; decide,
    by unfold noDot; decide⟩,
   c10_injective_on_dot_free "m1" "fn" "bb" "m1" "fn" "bb"
     (by unfold noDot; decide) (by unfold noDot; decide)
     (by unfold noDot; decide) (by unfold noDot; decide)
     (by unfold noDot; decide) (by unfold noDot; decide) rfl⟩

/-! Claim C6: the indirect-call attribute.  The lemmas below track the
flattened attribute view `icFlat` through every operation of the
builder and show that the final attribute of a node is the last value
written for it by the indirect-call loops. -/

theorem find_map_update (n x : String) (f : NodeAttrs → NodeAttrs) :
    ∀ l : List (String × NodeAttrs),
    ((l.map (fun p => if p.1 = n then (p.1, f p.2) else p)).find?
      (fun p => p.1 = x)).map (fun p => p.2) =
    if x = n then ((l.find? (fun p => p.1 = x)).map (fun p => p.2)).map f
    else (l.find? (fun p => p.1 = x)).map (fun p => p.2)
  | [] => by by_cases h : x = n <;> simp [h]
  | (k, a) :: rest => by
    have ih := find_map_update n x f rest
    by_cases hp : k = n <;> by_cases hx : k = x
    · have hxn : x = n := by rw [← hx]; exact hp
      simp [List.find?_cons, hp, hx, hxn]
    · have hxn : ¬ x = n := fun e => hx (by rw [hp, ← e])
      have hnx : ¬ n = x := fun e => hxn e.symm
      simp [List.find?_cons, hp, hx, hxn, hnx, ih, -List.find?_map]
    · have hxn : ¬ x = n := fun e => hp (by rw [hx, e])
      simp [List.find?_cons, hp, hx, hxn]
    · simp [List.find?_cons, hp, hx, ih, -List.find?_map]

theorem attrsOf_updateNode (g : Cfg) (n x : String)
    (f : NodeAttrs → NodeAttrs) :
    (g.updateNode n f).attrsOf x =
      if x = n then (g.attrsOf x).map f else g.attrsOf x := by
  simp only [Cfg.attrsOf, Cfg.updateNode]
  exact find_map_update n x f g.nodes

theorem attrsOf_snoc (l : List (String × NodeAttrs)) (n x : String)
    (a : NodeAttrs) :
    (Cfg.mk (l ++ [(n, a)]) []).attrsOf x =
      ((Cfg.mk l []).attrsOf x).orElse
        (fun _ => if n = x then some a else none) := by
  simp only [Cfg.attrsOf]
  rw [List.find?_append]
  cases hf : l.find? (fun p => p.1 = x) with
  | some p => simp
  | none =>
    simp only [Option.or, Option.map]
    rw [List.find?_cons]
    by_cases h : n = x <;> simp [h, Option.orElse]

theorem attrsOf_edges_irrelevant (nodes : List (String × NodeAttrs))
    (es es' : List (String × String)) (x : String) :
    (Cfg.mk nodes es).attrsOf x = (Cfg.mk nodes es').attrsOf x := rfl

theorem icFlat_updateNode_preserve (g : Cfg) (n x : String)
    (f : NodeAttrs → NodeAttrs)
    (hf : ∀ a, (f a).indirect_calls = a.indirect_calls) :
    icFlat (g.updateNode n f) x = icFlat g x := by
  unfold icFlat
  rw [attrsOf_updateNode]
  by_cases h : x = n
  · rw [if_pos h]
    cases g.attrsOf x with
    | none => rfl
    | some a => simp [hf a]
  · rw [if_neg h]

theorem icFlat_addBareNode (g : Cfg) (n x : String) :
    icFlat (g.addBareNode n) x = icFlat g x := by
  unfold Cfg.addBareNode
  by_cases h : g.hasNode n
  · rw [if_pos h]
  · rw [if_neg h]
    unfold icFlat
    obtain ⟨nodes, es⟩ := g
    rw [show ({ nodes := nodes, edges := es } : Cfg).attrsOf x =
      (Cfg.mk nodes []).attrsOf x from rfl]
    rw [show ({ nodes := nodes ++ [(n, {})], edges := es } : Cfg).attrsOf x =
      (Cfg.mk (nodes ++ [(n, {})]) []).attrsOf x from rfl]
    rw [attrsOf_snoc]
    cases hf : (Cfg.mk nodes []).attrsOf x with
    | some a => simp [Option.orElse]
    | none =>
      by_cases hx : n = x <;> simp [hx, Option.orElse]

theorem icFlat_addNodeWith_preserve (g : Cfg) (n x : String)
    (f : NodeAttrs → NodeAttrs)
    (hf : ∀ a, (f a).indirect_calls = a.indirect_calls)
    (hf0 : (f {}).indirect_calls = none) :
    icFlat (g.addNodeWith n f) x = icFlat g x := by
  unfold Cfg.addNodeWith
  by_cases h : g.hasNode n
  · rw [if_pos h]
    exact icFlat_updateNode_preserve g n x f hf
  · rw [if_neg h]
    unfold icFlat
    obtain ⟨nodes, es⟩ := g
    rw [show ({ nodes := nodes, edges := es } : Cfg).attrsOf x =
      (Cfg.mk nodes []).attrsOf x from rfl]
    rw [show ({ nodes := nodes ++ [(n, f {})], edges := es } : Cfg).attrsOf x
      = (Cfg.mk (nodes ++ [(n, f {})]) []).attrsOf x from rfl]
    rw [attrsOf_snoc]
    cases hfx : (Cfg.mk nodes []).attrsOf x with
    | some a => simp [Option.orElse]
    | none =>
      by_cases hx : n = x <;> simp [hx, Option.orElse, hf0]

theorem icFlat_addEdge (g : Cfg) (u v x : String) :
    icFlat (g.addEdge u v) x = icFlat g x := by
  have h1 : icFlat (g.addEdge u v) x =
      icFlat ((g.addBareNode u).addBareNode v) x := by
    unfold Cfg.addEdge
    by_cases h : (u, v) ∈ ((g.addBareNode u).addBareNode v).edges
    · rw [if_pos h]
    · rw [if_neg h]
      unfold icFlat
      rfl
  rw [h1, icFlat_addBareNode, icFlat_addBareNode]

theorem icFlat_processNode1 (mod func : String) (g : Cfg) (label : String)
    (data : BlockData) (g' : Cfg) (x : String)
    (h : processNode1 mod func g label data = .ok g') :
    icFlat g' x = icFlat g x := by
  unfold processNode1 at h
  cases hs : data.start_line with
  | none => rw [hs] at h; exact Except.noConfusion h
  | some sl =>
    cases he : data.end_line with
    | none => rw [hs, he] at h; exact Except.noConfusion h
    | some el =>
      cases hz : data.size with
      | none => rw [hs, he, hz] at h; exact Except.noConfusion h
      | some sz =>
        rw [hs, he, hz] at h
        dsimp only at h
        by_cases hc : (truthyInt sl && truthyInt el) = true
        · rw [if_pos hc] at h
          cases h
          have h1 := icFlat_updateNode_preserve
            (g.addNodeWith (create_cfg_node mod func label)
              (fun a => { a with module := some mod,
                                 function := some func }))
            (create_cfg_node mod func label) x
            (fun a => { a with start_line := some sl, end_line := some el,
                               size := some sz })
            (fun a => rfl)
          rw [h1]
          exact icFlat_addNodeWith_preserve g _ x _ (fun a => rfl) rfl
        · rw [if_neg hc] at h
          cases h
          exact icFlat_addNodeWith_preserve g _ x _ (fun a => rfl) rfl

theorem icFlat_processNodes (mod func : String)
    (l : List (String × BlockData)) :
    ∀ g g' x, processNodes mod func l g = .ok g' → icFlat g' x = icFlat g x := by
  induction l with
  | nil =>
    intro g g' x h
    cases h
    rfl
  | cons p rest ih =>
    intro g g' x h
    unfold processNodes at h
    cases hp : processNode1 mod func g p.1 p.2 with
    | error e => rw [hp] at h; exact Except.noConfusion h
    | ok g1 =>
      rw [hp] at h
      rw [ih g1 g' x h, icFlat_processNode1 mod func g p.1 p.2 g1 x hp]

theorem icFlat_processEdges (ep : String) (em : Option String)
    (mod func : String) (l : List Edge) :
    ∀ g en x, icFlat (processEdges ep em mod func l (g, en)).1 x =
      icFlat g x := by
  induction l with
  | nil => intro g en x; rfl
  | cons e rest ih =>
    intro g en x
    have hstep : processEdges ep em mod func (e :: rest) (g, en) =
        processEdges ep em mod func rest
          (g.addEdge (create_cfg_node mod func e.src)
            (create_cfg_node mod func e.dst),
           if entryCond ep em mod func &&
               (g.addEdge (create_cfg_node mod func e.src)
                 (create_cfg_node mod func e.dst)).inDegree
                 (create_cfg_node mod func e.src) = 0 then
             insertEntry en (create_cfg_node mod func e.src)
           else en) := rfl
    rw [hstep, ih, icFlat_addEdge]

theorem icFlat_processReturns (mod func caller callee : String)
    (rl : List String) :
    ∀ g x, icFlat (processReturns mod func caller callee rl g) x =
      icFlat g x := by
  induction rl with
  | nil => intro g x; rfl
  | cons r rest ih =>
    intro g x
    have hstep : processReturns mod func caller callee (r :: rest) g =
        processReturns mod func caller callee rest
          (g.addEdge (create_cfg_node mod callee r)
            (create_cfg_node mod func caller)) := rfl
    rw [hstep, ih, icFlat_addEdge]

theorem icFlat_processCall (d : CfgDict) (ep : String) (em : Option String)
    (mod func : String) (c : Call) (g : Cfg) (en : List String) (x : String) :
    icFlat (processCall d ep em mod func c (g, en)).1 x = icFlat g x := by
  cases hf : find_callee d c.dst with
  | none => simp only [processCall, hf]
  | some cd =>
    cases hent : cd.entry with
    | none => simp only [processCall, hf, hent]
    | some entryLabel =>
      simp only [processCall, hf, hent]
      rw [icFlat_processReturns, icFlat_addEdge]

theorem icFlat_processCalls (d : CfgDict) (ep : String) (em : Option String)
    (mod func : String) (l : List Call) :
    ∀ g en x, icFlat (processCalls d ep em mod func l (g, en)).1 x =
      icFlat g x := by
  induction l with
  | nil => intro g en x; rfl
  | cons c rest ih =>
    intro g en x
    have hstep : processCalls d ep em mod func (c :: rest) (g, en) =
        processCalls d ep em mod func rest
          (processCall d ep em mod func c (g, en)) := rfl
    rcases hp : processCall d ep em mod func c (g, en) with ⟨g1, en1⟩
    have h1 := icFlat_processCall d ep em mod func c g en x
    rw [hp] at h1
    rw [hstep, hp, ih g1 en1 x, h1]

theorem icFlat_processIndirectKeys (mod func : String) (ic : List String)
    (keys : List String) :
    ∀ g x, icFlat (processIndirectKeys mod func ic keys g) x =
      match lastAssign (keys.map (fun k =>
        (create_cfg_node mod func k, ic.count k))) x with
      | some v => some v
      | none => icFlat g x := by
  induction keys with
  | nil =>
    intro g x
    rfl
  | cons k rest ih =>
    intro g x
    have hstep : processIndirectKeys mod func ic (k :: rest) g =
        processIndirectKeys mod func ic rest
          (((g.addBareNode (create_cfg_node mod func k))).updateNode
            (create_cfg_node mod func k)
            (fun a => { a with indirect_calls := some (ic.count k) })) := rfl
    rw [hstep, ih]
    have hpoint : icFlat
        (((g.addBareNode (create_cfg_node mod func k))).updateNode
          (create_cfg_node mod func k)
          (fun a => { a with indirect_calls := some (ic.count k) })) x =
        if x = create_cfg_node mod func k then some (ic.count k)
        else icFlat g x := by
      unfold icFlat
      rw [attrsOf_updateNode]
      by_cases hx : x = create_cfg_node mod func k
      · rw [if_pos hx, if_pos hx]
        have hsome : ((g.addBareNode (create_cfg_node mod func k)).attrsOf
            x).isSome = true := by
          rw [hx]
          unfold Cfg.addBareNode
          by_cases hh : g.hasNode (create_cfg_node mod func k)
          · rw [if_pos hh]
            unfold Cfg.hasNode at hh
            rcases List.any_eq_true.1 hh with ⟨p, hp, hdec⟩
            unfold Cfg.attrsOf
            cases hfind : g.nodes.find? (fun q =>
              q.1 = create_cfg_node mod func k) with
            | some q => rfl
            | none =>
              rcases List.find?_eq_none.1 hfind p hp with hne
              exact absurd hdec (by simpa using hne)
          · rw [if_neg hh]
            unfold Cfg.attrsOf
            rw [List.find?_append]
            cases hfind : g.nodes.find? (fun q =>
              q.1 = create_cfg_node mod func k) with
            | some q => simp
            | none => simp
        cases hat : (g.addBareNode (create_cfg_node mod func k)).attrsOf x
          with
        | none => rw [hat] at hsome; cases hsome
        | some a => rfl
      · rw [if_neg hx, if_neg hx]
        have := icFlat_addBareNode g (create_cfg_node mod func k) x
        unfold icFlat at this
        exact this
    rw [hpoint]
    rw [List.map_cons]
    by_cases hx : x = create_cfg_node mod func k
    · subst hx
      cases hl : lastAssign (rest.map (fun k =>
        (create_cfg_node mod func k, ic.count k)))
        (create_cfg_node mod func k) with
      | some v => simp [lastAssign, hl]
      | none => simp [lastAssign, hl]
    · have hcx : ¬ create_cfg_node mod func k = x := fun e => hx e.symm
      cases hl : lastAssign (rest.map (fun k =>
        (create_cfg_node mod func k, ic.count k))) x with
      | some v => simp [lastAssign, hl]
      | none => simp [lastAssign, hl, hx, hcx]

theorem lastAssign_append (a b : List (String × Nat)) (x : String) :
    lastAssign (a ++ b) x =
      match lastAssign b x with
      | some v => some v
      | none => lastAssign a x := by
  induction a with
  | nil =>
    rw [List.nil_append]
    cases lastAssign b x <;> rfl
  | cons w ws ih =>
    rw [List.cons_append]
    show (match lastAssign (ws ++ b) x with
      | some v => some v
      | none => if w.1 = x then some w.2 else none) = _
    rw [ih]
    cases hb : lastAssign b x <;> cases hw : lastAssign ws x <;>
      simp [lastAssign, hb, hw]

theorem icFlat_processFunc (d : CfgDict) (ep : String) (em : Option String)
    (bl : List String) (mod func : String) (rec : FuncRec)
    (s s' : Cfg × List String) (x : String)
    (h : processFunc d ep em bl mod func rec s = .ok s') :
    icFlat s'.1 x =
      match lastAssign (funcAsg bl mod func rec) x with
      | some v => some v
      | none => icFlat s.1 x := by
  unfold processFunc at h
  unfold funcAsg
  by_cases hbl : func ∈ bl
  · rw [if_pos hbl] at h
    cases h
    rw [if_pos hbl]
    rfl
  · rw [if_neg hbl] at h
    rw [if_neg hbl]
    cases hn : processNodes mod func (rec.nodes.getD []) s.1 with
    | error e => rw [hn] at h; exact Except.noConfusion h
    | ok g1 =>
      rw [hn] at h
      dsimp only at h
      rcases hpe : processEdges ep em mod func (rec.edges.getD []) (g1, s.2)
        with ⟨g2, en2⟩
      rcases hpc : processCalls d ep em mod func (rec.calls.getD [])
        (g2, en2) with ⟨g3, en3⟩
      rw [hpe, hpc] at h
      cases h
      have h3 := icFlat_processIndirectKeys mod func
        (rec.indirect_calls.getD [])
        (dedupFirst (rec.indirect_calls.getD [])) g3 x
      have hc2 := icFlat_processCalls d ep em mod func (rec.calls.getD [])
        g2 en2 x
      rw [hpc] at hc2
      dsimp only at hc2
      have he2 := icFlat_processEdges ep em mod func (rec.edges.getD [])
        g1 s.2 x
      rw [hpe] at he2
      dsimp only at he2
      have hn2 := icFlat_processNodes mod func (rec.nodes.getD []) s.1 g1
        x hn
      show icFlat (processIndirect mod func (rec.indirect_calls.getD []) g3)
        x = _
      unfold processIndirect
      rw [h3, hc2, he2, hn2]

theorem icFlat_processFuncs (d : CfgDict) (ep : String) (em : Option String)
    (bl : List String) (mod : String) (l : List (String × FuncRec)) :
    ∀ s s' x, processFuncs d ep em bl mod l s = .ok s' →
      icFlat s'.1 x =
        match lastAssign (funcsAsg bl mod l) x with
        | some v => some v
        | none => icFlat s.1 x := by
  induction l with
  | nil =>
    intro s s' x h
    cases h
    rfl
  | cons p rest ih =>
    intro s s' x h
    unfold processFuncs at h
    cases hf : processFunc d ep em bl mod p.1 p.2 s with
    | error e => rw [hf] at h; exact Except.noConfusion h
    | ok s1 =>
      rw [hf] at h
      have h1 := ih s1 s' x h
      have h2 := icFlat_processFunc d ep em bl mod p.1 p.2 s s1 x hf
      rw [show funcsAsg bl mod (p :: rest) =
        funcAsg bl mod p.1 p.2 ++ funcsAsg bl mod rest by
          obtain ⟨f, r⟩ := p; rfl]
      rw [lastAssign_append, h1, h2]
      cases lastAssign (funcsAsg bl mod rest) x <;>
        cases lastAssign (funcAsg bl mod p.1 p.2) x <;> rfl

theorem icFlat_processModules (d : CfgDict) (ep : String)
    (em : Option String) (bl : List String) (l : CfgDict) :
    ∀ s s' x, processModules d ep em bl l s = .ok s' →
      icFlat s'.1 x =
        match lastAssign (modsAsg bl l) x with
        | some v => some v
        | none => icFlat s.1 x := by
  induction l with
  | nil =>
    intro s s' x h
    cases h
    rfl
  | cons p rest ih =>
    intro s s' x h
    unfold processModules at h
    cases hf : processFuncs d ep em bl p.1 p.2 s with
    | error e => rw [hf] at h; exact Except.noConfusion h
    | ok s1 =>
      rw [hf] at h
      have h1 := ih s1 s' x h
      have h2 := icFlat_processFuncs d ep em bl p.1 p.2 s s1 x hf
      rw [show modsAsg bl (p :: rest) =
        funcsAsg bl p.1 p.2 ++ modsAsg bl rest by
          obtain ⟨m, fl⟩ := p; rfl]
      rw [lastAssign_append, h1, h2]
      cases lastAssign (modsAsg bl rest) x <;>
        cases lastAssign (funcsAsg bl p.1 p.2) x <;> rfl

/-! Claim C6 theorems. -/

/-- C6 counterexample: the claim, as stated, is false on the code.  The
label `d` occurs three times in total across the two records of
`c6dict`, and both records map it to the same node `a.b.c.d`, yet the
final attribute is 1: the second record's assignment overwrites the
first instead of accumulating. -/
theorem c6_counterexample :
    create_cfg_node "a" "b.c" "d" = "a.b.c.d" ∧
    create_cfg_node "a.b" "c" "d" = "a.b.c.d" ∧
    (create_cfg c6dict "main" none []).map
      (fun p => (p.1.attrsOf "a.b.c.d").map (fun a => a.indirect_calls)) =
      .ok (some (some 1)) ∧
    ((["d", "d"] : List String).count "d" +
      (["d"] : List String).count "d" = 3) ∧ (1 : Nat) ≠ 3 :=
  ⟨rfl, rfl, by rfl, by decide, by decide⟩

/-- C6 (amended): within one record the attribute written for a block
equals the multiplicity of its label in that record's list; when
several records produce the same node, the attribute of the node in the
built graph is the value of the last write performed for it, in
processing order, not the accumulated total.  Formally, a node's
`indirect_calls` attribute equals `lastAssign` of the assignment list
of the whole run, where each record contributes one write per distinct
label carrying its in-record multiplicity. -/
theorem c6_indirect_attr_is_last_write (d : CfgDict) (ep : String)
    (em : Option String) (bl : List String) (g : Cfg) (en : List String)
    (n : String) (h : create_cfg d ep em bl = .ok (g, en)) :
    (∀ a, g.attrsOf n = some a →
      a.indirect_calls = lastAssign (modsAsg bl d) n) ∧
    (g.attrsOf n = none → lastAssign (modsAsg bl d) n = none) := by
  have hm := icFlat_processModules d ep em bl d ({}, []) (g, en) n h
  have hflat : icFlat g n = lastAssign (modsAsg bl d) n := by
    rw [hm]
    cases lastAssign (modsAsg bl d) n <;> rfl
  constructor
  · intro a ha
    rw [← hflat]
    unfold icFlat
    rw [ha]
  · intro ha
    rw [← hflat]
    unfold icFlat
    rw [ha]

/-- C6 witness: the last-write characterization applied to the concrete
collection `c6dict` and the colliding node `a.b.c.d`. -/
theorem c6_witness :
    (∀ a, c6graph.attrsOf "a.b.c.d" = some a →
      a.indirect_calls = lastAssign (modsAsg [] c6dict) "a.b.c.d") ∧
    (c6graph.attrsOf "a.b.c.d" = none →
      lastAssign (modsAsg [] c6dict) "a.b.c.d" = none) :=
  c6_indirect_attr_is_last_write c6dict "main" none [] c6graph []
    "a.b.c.d" (by rfl)

/-! Congruence of the builder under lookup-equivalent dictionaries:
processing consults a callee record only through its module, entry and
(null-defaulted) returns fields. -/

theorem findInMod_congr (fl fl' : List (String × FuncRec))
    (h : List.Forall₂ (fun a b => a.1 = b.1 ∧ REquiv a.2 b.2) fl fl')
    (x : String) :
    (findInMod fl x).map rView = (findInMod fl' x).map rView := by
  induction h with
  | nil => rfl
  | @cons a b l l' hab hrest ih =>
    obtain ⟨ha, hr⟩ := hab
    obtain ⟨af, ar⟩ := a
    obtain ⟨bf, br⟩ := b
    dsimp only at ha hr
    subst ha
    unfold findInMod
    by_cases hx : x = af
    · rw [if_pos hx, if_pos hx]
      unfold REquiv at hr
      simp [hr]
    · rw [if_neg hx, if_neg hx]
      exact ih

theorem find_callee_congr (d d' : CfgDict) (h : DictREquiv d d')
    (x : String) :
    (find_callee d x).map rView = (find_callee d' x).map rView := by
  induction h with
  | nil => rfl
  | @cons a b l l' hab hrest ih =>
    obtain ⟨ha, hfl⟩ := hab
    obtain ⟨am, afl⟩ := a
    obtain ⟨bm, bfl⟩ := b
    dsimp only at ha hfl
    subst ha
    unfold find_callee
    have hin := findInMod_congr afl bfl hfl x
    cases h1 : findInMod afl x with
    | some r =>
      cases h2 : findInMod bfl x with
      | some r' =>
        rw [h1, h2] at hin
        simpa using hin
      | none =>
        rw [h1, h2] at hin
        exact absurd hin (by simp)
    | none =>
      cases h2 : findInMod bfl x with
      | some r' =>
        rw [h1, h2] at hin
        exact absurd hin (by simp)
      | none =>
        exact ih

theorem processCall_congr (d d' : CfgDict) (ep : String)
    (em : Option String) (mod func : String) (c : Call)
    (h : (find_callee d c.dst).map rView =
      (find_callee d' c.dst).map rView) (s : Cfg × List String) :
    processCall d ep em mod func c s = processCall d' ep em mod func c s := by
  cases hf : find_callee d c.dst with
  | none =>
    cases hf' : find_callee d' c.dst with
    | none => simp only [processCall, hf, hf']
    | some cd' =>
      rw [hf, hf'] at h
      exact absurd h (by simp)
  | some cd =>
    cases hf' : find_callee d' c.dst with
    | none =>
      rw [hf, hf'] at h
      exact absurd h (by simp)
    | some cd' =>
      rw [hf, hf'] at h
      have hv : rView cd = rView cd' := by simpa using h
      have hmod : cd.module = cd'.module := congrArg (fun t => t.1) hv
      have hent : cd.entry = cd'.entry := congrArg (fun t => t.2.1) hv
      have hret : cd.returns.getD [] = cd'.returns.getD [] :=
        congrArg (fun t => t.2.2) hv
      simp only [processCall, hf, hf']
      cases he : cd.entry with
      | none =>
        have he' : cd'.entry = none := by rw [← hent, he]
        rw [he']
      | some entryLabel =>
        have he' : cd'.entry = some entryLabel := by rw [← hent, he]
        rw [he']
        rw [hmod, hret]

theorem processCalls_congr (d d' : CfgDict) (ep : String)
    (em : Option String) (mod func : String)
    (h : ∀ x, (find_callee d x).map rView = (find_callee d' x).map rView)
    (l : List Call) :
    ∀ s, processCalls d ep em mod func l s =
      processCalls d' ep em mod func l s := by
  induction l with
  | nil => intro s; rfl
  | cons c rest ih =>
    intro s
    show processCalls d ep em mod func rest (processCall d ep em mod func c s)
      = processCalls d' ep em mod func rest
          (processCall d' ep em mod func c s)
    rw [processCall_congr d d' ep em mod func c (h c.dst) s]
    exact ih (processCall d' ep em mod func c s)

theorem processFunc_congr (d d' : CfgDict) (ep : String)
    (em : Option String) (bl : List String) (mod func : String)
    (r r' : FuncRec) (hr : NEquiv r r')
    (h : ∀ x, (find_callee d x).map rView = (find_callee d' x).map rView)
    (s : Cfg × List String) :
    processFunc d ep em bl mod func r s =
      processFunc d' ep em bl mod func r' s := by
  unfold processFunc
  by_cases hbl : func ∈ bl
  · rw [if_pos hbl, if_pos hbl]
  · rw [if_neg hbl, if_neg hbl]
    obtain ⟨hm, he, hn, hed, hc, hic, hret⟩ := hr
    rw [hn, hed, hc, hic]
    cases processNodes mod func (r'.nodes.getD []) s.1 with
    | error e => rfl
    | ok g1 =>
      dsimp only
      rw [processCalls_congr d d' ep em mod func h (r'.calls.getD [])
        (processEdges ep em mod func (r'.edges.getD []) (g1, s.2))]

theorem processFuncs_congr (d d' : CfgDict) (ep : String)
    (em : Option String) (bl : List String) (mod : String)
    (fl fl' : List (String × FuncRec))
    (hfl : List.Forall₂ (fun a b => a.1 = b.1 ∧ NEquiv a.2 b.2) fl fl')
    (h : ∀ x, (find_callee d x).map rView = (find_callee d' x).map rView) :
    ∀ s, processFuncs d ep em bl mod fl s =
      processFuncs d' ep em bl mod fl' s := by
  induction hfl with
  | nil => intro s; rfl
  | @cons a b l l' hab hrest ih =>
    intro s
    obtain ⟨ha, hr⟩ := hab
    obtain ⟨af, ar⟩ := a
    obtain ⟨bf, br⟩ := b
    dsimp only at ha hr
    subst ha
    have hlhs : processFuncs d ep em bl mod ((af, ar) :: l) s =
        match processFunc d ep em bl mod af ar s with
        | Except.error e => Except.error e
        | Except.ok s1 => processFuncs d ep em bl mod l s1 := rfl
    have hrhs : processFuncs d' ep em bl mod ((af, br) :: l') s =
        match processFunc d' ep em bl mod af br s with
        | Except.error e => Except.error e
        | Except.ok s1 => processFuncs d' ep em bl mod l' s1 := rfl
    rw [hlhs, hrhs, processFunc_congr d d' ep em bl mod af ar br hr h s]
    cases processFunc d' ep em bl mod af br s with
    | error e => rfl
    | ok s1 => exact ih s1

theorem processModules_congr (d d' : CfgDict) (ep : String)
    (em : Option String) (bl : List String) (l l' : CfgDict)
    (hl : DictNEquiv l l')
    (h : ∀ x, (find_callee d x).map rView = (find_callee d' x).map rView) :
    ∀ s, processModules d ep em bl l s = processModules d' ep em bl l' s := by
  induction hl with
  | nil => intro s; rfl
  | @cons a b t t' hab hrest ih =>
    intro s
    obtain ⟨ha, hfl⟩ := hab
    obtain ⟨am, afl⟩ := a
    obtain ⟨bm, bfl⟩ := b
    dsimp only at ha hfl
    subst ha
    have hlhs : processModules d ep em bl ((am, afl) :: t) s =
        match processFuncs d ep em bl am afl s with
        | Except.error e => Except.error e
        | Except.ok s1 => processModules d ep em bl t s1 := rfl
    have hrhs : processModules d' ep em bl ((am, bfl) :: t') s =
        match processFuncs d' ep em bl am bfl s with
        | Except.error e => Except.error e
        | Except.ok s1 => processModules d' ep em bl t' s1 := rfl
    rw [hlhs, hrhs, processFuncs_congr d d' ep em bl am afl bfl hfl h s]
    cases processFuncs d' ep em bl am bfl s with
    | error e => rfl
    | ok s1 => exact ih s1

theorem nEquiv_rEquiv (r r' : FuncRec) (h : NEquiv r r') : REquiv r r' := by
  obtain ⟨hm, he, _, _, _, _, hret⟩ := h
  unfold REquiv rView
  rw [hm, he, hret]

theorem funcsNEquiv_rEquiv (fl fl' : List (String × FuncRec))
    (h : List.Forall₂ (fun a b => a.1 = b.1 ∧ NEquiv a.2 b.2) fl fl') :
    List.Forall₂ (fun a b => a.1 = b.1 ∧ REquiv a.2 b.2) fl fl' := by
  induction h with
  | nil => exact List.Forall₂.nil
  | @cons p q t t' hpq hrest ih =>
    exact List.Forall₂.cons ⟨hpq.1, nEquiv_rEquiv p.2 q.2 hpq.2⟩ ih

theorem dictNEquiv_rEquiv (d d' : CfgDict) (h : DictNEquiv d d') :
    DictREquiv d d' := by
  induction h with
  | nil => exact List.Forall₂.nil
  | @cons a b l l' hab hrest ih =>
    exact List.Forall₂.cons ⟨hab.1, funcsNEquiv_rEquiv a.2 b.2 hab.2⟩ ih

/-- Full congruence: two dictionaries whose records agree pointwise up
to null-defaulting of the optional list fields produce the same result
of `create_cfg`. -/
theorem create_cfg_congr (d d' : CfgDict) (ep : String)
    (em : Option String) (bl : List String) (h : DictNEquiv d d') :
    create_cfg d ep em bl = create_cfg d' ep em bl := by
  unfold create_cfg
  exact processModules_congr d d' ep em bl d d' h
    (find_callee_congr d d' (dictNEquiv_rEquiv d d' h)) ({}, [])

/-! Claim C8: optional fields and block metadata keys. -/

theorem nEquiv_normalize (r : FuncRec) : NEquiv (normalizeRec r) r := by
  unfold NEquiv normalizeRec
  exact ⟨rfl, rfl, rfl, rfl, rfl, rfl, rfl⟩

theorem funcsNEquiv_normalize (fl : List (String × FuncRec)) :
    List.Forall₂ (fun a b => a.1 = b.1 ∧ NEquiv a.2 b.2)
      (fl.map (fun q => (q.1, normalizeRec q.2))) fl := by
  induction fl with
  | nil => exact List.Forall₂.nil
  | cons q qrest ih =>
    rw [List.map_cons]
    exact List.Forall₂.cons ⟨rfl, nEquiv_normalize q.2⟩ ih

theorem dictNEquiv_normalize (d : CfgDict) :
    DictNEquiv (normalizeDict d) d := by
  unfold normalizeDict DictNEquiv
  induction d with
  | nil => exact List.Forall₂.nil
  | cons p rest ih =>
    rw [List.map_cons]
    exact List.Forall₂.cons ⟨rfl, funcsNEquiv_normalize p.2⟩ ih

theorem processNode1_ok (mod func : String) (g : Cfg) (label : String)
    (data : BlockData) (hk : blockKeyed data) :
    ∃ g', processNode1 mod func g label data = .ok g' := by
  obtain ⟨h1, h2, h3⟩ := hk
  unfold processNode1
  cases hs : data.start_line with
  | none => rw [hs] at h1; exact Bool.noConfusion h1
  | some sl =>
    cases he : data.end_line with
    | none => rw [he] at h2; exact Bool.noConfusion h2
    | some el =>
      cases hz : data.size with
      | none => rw [hz] at h3; exact Bool.noConfusion h3
      | some sz =>
        dsimp only
        by_cases hc : (truthyInt sl && truthyInt el) = true
        · rw [if_pos hc]
          exact ⟨_, rfl⟩
        · rw [if_neg hc]
          exact ⟨_, rfl⟩

theorem processNodes_ok (mod func : String) (l : List (String × BlockData))
    (hk : ∀ b ∈ l, blockKeyed b.2) :
    ∀ g, ∃ g', processNodes mod func l g = .ok g' := by
  induction l with
  | nil => intro g; exact ⟨g, rfl⟩
  | cons p rest ih =>
    intro g
    obtain ⟨g1, h1⟩ :=
      processNode1_ok mod func g p.1 p.2 (hk p (List.mem_cons_self p rest))
    obtain ⟨g', h'⟩ := ih (fun b hb => hk b (List.mem_cons_of_mem p hb)) g1
    refine ⟨g', ?_⟩
    unfold processNodes
    rw [h1]
    exact h'

theorem processFunc_ok (d : CfgDict) (ep : String) (em : Option String)
    (bl : List String) (mod func : String) (rec : FuncRec)
    (hk : ∀ b ∈ rec.nodes.getD [], blockKeyed b.2) (s : Cfg × List String) :
    ∃ s', processFunc d ep em bl mod func rec s = .ok s' := by
  unfold processFunc
  by_cases hbl : func ∈ bl
  · rw [if_pos hbl]
    exact ⟨s, rfl⟩
  · rw [if_neg hbl]
    obtain ⟨g1, h1⟩ := processNodes_ok mod func (rec.nodes.getD []) hk s.1
    rw [h1]
    exact ⟨_, rfl⟩

theorem processFuncs_ok (d : CfgDict) (ep : String) (em : Option String)
    (bl : List String) (mod : String) (fl : List (String × FuncRec))
    (hk : ∀ q ∈ fl, ∀ b ∈ (q.2 : FuncRec).nodes.getD [], blockKeyed b.2) :
    ∀ s, ∃ s', processFuncs d ep em bl mod fl s = .ok s' := by
  induction fl with
  | nil => intro s; exact ⟨s, rfl⟩
  | cons q qrest ih =>
    intro s
    obtain ⟨s1, h1⟩ := processFunc_ok d ep em bl mod q.1 q.2
      (hk q (List.mem_cons_self q qrest)) s
    obtain ⟨s', h'⟩ := ih (fun q' hq' => hk q' (List.mem_cons_of_mem q hq'))
      s1
    refine ⟨s', ?_⟩
    show (match processFunc d ep em bl mod q.1 q.2 s with
      | Except.error e => Except.error e
      | Except.ok s1 => processFuncs d ep em bl mod qrest s1) = _
    rw [h1]
    exact h'

theorem processModules_ok (d : CfgDict) (ep : String) (em : Option String)
    (bl : List String) (l : CfgDict)
    (hk : ∀ p ∈ l, ∀ q ∈ (p.2 : List (String × FuncRec)),
      ∀ b ∈ (q.2 : FuncRec).nodes.getD [], blockKeyed b.2) :
    ∀ s, ∃ s', processModules d ep em bl l s = .ok s' := by
  induction l with
  | nil => intro s; exact ⟨s, rfl⟩
  | cons p rest ih =>
    intro s
    obtain ⟨s1, h1⟩ := processFuncs_ok d ep em bl p.1 p.2
      (hk p (List.mem_cons_self p rest)) s
    obtain ⟨s', h'⟩ := ih (fun p' hp' => hk p' (List.mem_cons_of_mem p hp'))
      s1
    refine ⟨s', ?_⟩
    show (match processFuncs d ep em bl p.1 p.2 s with
      | Except.error e => Except.error e
      | Except.ok s1 => processModules d ep em bl rest s1) = _
    rw [h1]
    exact h'

/-- C8 counterexample: the claim, as stated, is false on the code.  A
record whose block datum carries none of the metadata keys makes
`create_cfg` raise `KeyError` for `start_line` instead of treating the
missing field as empty. -/
theorem c8_counterexample :
    c8rec.nodes =
      some [("b", { start_line := none, end_line := none, size := none })] ∧
    create_cfg c8dict "main" none [] = .error "KeyError: start_line" :=
  ⟨rfl, by rfl⟩

/-- C8 (amended): the top-level optional fields of a record (`nodes`,
`edges`, `calls`, `indirect_calls`, `returns`) may be absent or null and
are then treated as empty: defaulting them to empty lists does not
change the built graph at all, and construction completes without an
exception whenever every block datum carries its three metadata keys
(whose values may still be null).  A block datum missing one of the
`start_line`, `end_line`, `size` keys, however, raises `KeyError`. -/
theorem c8_optional_fields_defaulted (d : CfgDict) (ep : String)
    (em : Option String) (bl : List String) (hk : dictKeyed d) :
    create_cfg (normalizeDict d) ep em bl = create_cfg d ep em bl ∧
    ∃ p, create_cfg d ep em bl = .ok p :=
  ⟨create_cfg_congr (normalizeDict d) d ep em bl (dictNEquiv_normalize d),
   processModules_ok d ep em bl d hk ({}, [])⟩

/-- C8 witness: a record collection whose every optional field is
absent is processed without an exception and exactly as its defaulted
version. -/
theorem c8_witness :
    dictKeyed c8okDict ∧
    (create_cfg (normalizeDict c8okDict) "main" none [] =
        create_cfg c8okDict "main" none [] ∧
      ∃ p, create_cfg c8okDict "main" none [] = .ok p) :=
  ⟨by unfold dictKeyed blockKeyed; decide,
   c8_optional_fields_defaulted c8okDict "main" none []
     (by unfold dictKeyed blockKeyed; decide)⟩

/-! Claim C5: dropping an unresolvable call. -/

theorem nEquiv_refl (r : FuncRec) : NEquiv r r :=
  ⟨rfl, rfl, rfl, rfl, rfl, rfl, rfl⟩

theorem funcsNEquiv_refl (fl : List (String × FuncRec)) :
    List.Forall₂ (fun a b => a.1 = b.1 ∧ NEquiv a.2 b.2) fl fl := by
  induction fl with
  | nil => exact List.Forall₂.nil
  | cons q qrest ih => exact List.Forall₂.cons ⟨rfl, nEquiv_refl q.2⟩ ih

theorem dictNEquiv_refl (dd : CfgDict) : DictNEquiv dd dd := by
  induction dd with
  | nil => exact List.Forall₂.nil
  | cons p rest ih => exact List.Forall₂.cons ⟨rfl, funcsNEquiv_refl p.2⟩ ih

theorem funcsREquiv_refl (fl : List (String × FuncRec)) :
    List.Forall₂ (fun a b => a.1 = b.1 ∧ REquiv a.2 b.2) fl fl :=
  funcsNEquiv_refl fl |> funcsNEquiv_rEquiv fl fl

theorem dictREquiv_refl (dd : CfgDict) : DictREquiv dd dd :=
  dictNEquiv_rEquiv dd dd (dictNEquiv_refl dd)

theorem processCalls_append (d : CfgDict) (ep : String) (em : Option String)
    (mod func : String) (a b : List Call) :
    ∀ s, processCalls d ep em mod func (a ++ b) s =
      processCalls d ep em mod func b (processCalls d ep em mod func a s) := by
  induction a with
  | nil => intro s; rfl
  | cons c rest ih =>
    intro s
    show processCalls d ep em mod func (rest ++ b)
      (processCall d ep em mod func c s) = _
    exact ih (processCall d ep em mod func c s)

theorem processCall_unresolvable (d : CfgDict) (ep : String)
    (em : Option String) (mod func : String) (c : Call)
    (h : unresolvable d c.dst) (s : Cfg × List String) :
    processCall d ep em mod func c s = s := by
  unfold unresolvable at h
  cases hf : find_callee d c.dst with
  | none => simp only [processCall, hf]
  | some r =>
    rw [hf] at h
    dsimp only at h
    simp only [processCall, hf, h]

theorem processFuncs_append (d : CfgDict) (ep : String) (em : Option String)
    (bl : List String) (mod : String) (a b : List (String × FuncRec)) :
    ∀ s, processFuncs d ep em bl mod (a ++ b) s =
      match processFuncs d ep em bl mod a s with
      | Except.error e => Except.error e
      | Except.ok s1 => processFuncs d ep em bl mod b s1 := by
  induction a with
  | nil => intro s; rfl
  | cons q qrest ih =>
    intro s
    have hlhs : processFuncs d ep em bl mod ((q :: qrest) ++ b) s =
        match processFunc d ep em bl mod q.1 q.2 s with
        | Except.error e => Except.error e
        | Except.ok s1 => processFuncs d ep em bl mod (qrest ++ b) s1 := by
      obtain ⟨f, r⟩ := q; rfl
    have hrhs : processFuncs d ep em bl mod (q :: qrest) s =
        match processFunc d ep em bl mod q.1 q.2 s with
        | Except.error e => Except.error e
        | Except.ok s1 => processFuncs d ep em bl mod qrest s1 := by
      obtain ⟨f, r⟩ := q; rfl
    rw [hlhs, hrhs]
    cases processFunc d ep em bl mod q.1 q.2 s with
    | error e => rfl
    | ok s1 => exact ih s1

theorem processModules_append (d : CfgDict) (ep : String)
    (em : Option String) (bl : List String) (a b : CfgDict) :
    ∀ s, processModules d ep em bl (a ++ b) s =
      match processModules d ep em bl a s with
      | Except.error e => Except.error e
      | Except.ok s1 => processModules d ep em bl b s1 := by
  induction a with
  | nil => intro s; rfl
  | cons p rest ih =>
    intro s
    have hlhs : processModules d ep em bl ((p :: rest) ++ b) s =
        match processFuncs d ep em bl p.1 p.2 s with
        | Except.error e => Except.error e
        | Except.ok s1 => processModules d ep em bl (rest ++ b) s1 := by
      obtain ⟨m, fl⟩ := p; rfl
    have hrhs : processModules d ep em bl (p :: rest) s =
        match processFuncs d ep em bl p.1 p.2 s with
        | Except.error e => Except.error e
        | Except.ok s1 => processModules d ep em bl rest s1 := by
      obtain ⟨m, fl⟩ := p; rfl
    rw [hlhs, hrhs]
    cases processFuncs d ep em bl p.1 p.2 s with
    | error e => rfl
    | ok s1 => exact ih s1

theorem processFunc_drop_unresolvable (d : CfgDict) (ep : String)
    (em : Option String) (bl : List String) (mod func : String)
    (rec : FuncRec) (l1 l2 : List Call) (c : Call)
    (hc : rec.calls = some (l1 ++ c :: l2)) (hun : unresolvable d c.dst)
    (s : Cfg × List String) :
    processFunc d ep em bl mod func rec s =
      processFunc d ep em bl mod func
        { rec with calls := some (l1 ++ l2) } s := by
  unfold processFunc
  by_cases hbl : func ∈ bl
  · rw [if_pos hbl, if_pos hbl]
  · rw [if_neg hbl, if_neg hbl]
    dsimp only
    cases processNodes mod func (rec.nodes.getD []) s.1 with
    | error e => rfl
    | ok g1 =>
      dsimp only
      rw [hc]
      dsimp only [Option.getD]
      rw [processCalls_append d ep em mod func l1 (c :: l2)]
      rw [processCalls_append d ep em mod func l1 l2]
      rw [show ∀ t, processCalls d ep em mod func (c :: l2) t =
        processCalls d ep em mod func l2 (processCall d ep em mod func c t)
        from fun t => rfl]
      rw [processCall_unresolvable d ep em mod func c hun]

/-- C5: for a call whose callee name is unresolvable (absent from all
records, or resolved to a record without an `entry` field), the builder
produces exactly the same graph and entry-node set as it does on the
same input with that call removed: no node for the callee, no call or
return edge for that call site, and everything else untouched. -/
theorem c5_unresolvable_call_removed (ep : String) (em : Option String)
    (bl : List String) (pre post : CfgDict) (m F : String)
    (fpre fpost : List (String × FuncRec)) (rec : FuncRec)
    (l1 l2 : List Call) (c : Call)
    (hcalls : rec.calls = some (l1 ++ c :: l2))
    (hun : unresolvable (pre ++ (m, fpre ++ (F, rec) :: fpost) :: post)
      c.dst) :
    create_cfg (pre ++ (m, fpre ++ (F, rec) :: fpost) :: post) ep em bl =
      create_cfg (pre ++
        (m, fpre ++ (F, { rec with calls := some (l1 ++ l2) }) :: fpost)
          :: post) ep em bl := by
  have hreq : DictREquiv (pre ++ (m, fpre ++ (F, rec) :: fpost) :: post)
      (pre ++
        (m, fpre ++ (F, { rec with calls := some (l1 ++ l2) }) :: fpost)
          :: post) := by
    refine List.rel_append (dictREquiv_refl pre) ?_
    refine List.Forall₂.cons ⟨rfl, ?_⟩ (dictREquiv_refl post)
    refine List.rel_append (funcsREquiv_refl fpre) ?_
    exact List.Forall₂.cons ⟨rfl, rfl⟩ (funcsREquiv_refl fpost)
  have hview := find_callee_congr _ _ hreq
  unfold create_cfg
  rw [processModules_append, processModules_append]
  rw [processModules_congr _ _ ep em bl pre pre (dictNEquiv_refl pre) hview]
  cases processModules
    (pre ++
      (m, fpre ++ (F, { rec with calls := some (l1 ++ l2) }) :: fpost)
        :: post) ep em bl pre ({}, []) with
  | error e => rfl
  | ok s1 =>
    dsimp only
    have hl1 : ∀ dd s, processModules dd ep em bl
        ((m, fpre ++ (F, rec) :: fpost) :: post) s =
        match processFuncs dd ep em bl m (fpre ++ (F, rec) :: fpost) s with
        | Except.error e => Except.error e
        | Except.ok s2 => processModules dd ep em bl post s2 :=
      fun dd s => rfl
    have hl2 : ∀ dd s, processModules dd ep em bl
        ((m, fpre ++ (F, { rec with calls := some (l1 ++ l2) }) :: fpost)
          :: post) s =
        match processFuncs dd ep em bl m
          (fpre ++ (F, { rec with calls := some (l1 ++ l2) }) :: fpost) s
          with
        | Except.error e => Except.error e
        | Except.ok s2 => processModules dd ep em bl post s2 :=
      fun dd s => rfl
    rw [hl1, hl2]
    rw [processFuncs_append, processFuncs_append]
    rw [processFuncs_congr _ _ ep em bl m fpre fpre (funcsNEquiv_refl fpre)
      hview]
    cases processFuncs
      (pre ++
        (m, fpre ++ (F, { rec with calls := some (l1 ++ l2) }) :: fpost)
          :: post) ep em bl m fpre s1 with
    | error e => rfl
    | ok s2 =>
      dsimp only
      have hF : processFunc
          (pre ++ (m, fpre ++ (F, rec) :: fpost) :: post) ep em bl m F rec
            s2 =
          processFunc
            (pre ++
              (m, fpre ++ (F, { rec with calls := some (l1 ++ l2) })
                :: fpost) :: post) ep em bl m F
            { rec with calls := some (l1 ++ l2) } s2 := by
        rw [processFunc_drop_unresolvable _ ep em bl m F rec l1 l2 c hcalls
          hun s2]
        exact processFunc_congr _ _ ep em bl m F
          { rec with calls := some (l1 ++ l2) }
          { rec with calls := some (l1 ++ l2) }
          (nEquiv_refl _) hview s2
      have hc1 : ∀ dd (r : FuncRec) s, processFuncs dd ep em bl m
          ((F, r) :: fpost) s =
          match processFunc dd ep em bl m F r s with
          | Except.error e => Except.error e
          | Except.ok s3 => processFuncs dd ep em bl m fpost s3 :=
        fun dd r s => rfl
      rw [hc1, hc1, hF]
      cases processFunc
        (pre ++
          (m, fpre ++ (F, { rec with calls := some (l1 ++ l2) }) :: fpost)
            :: post) ep em bl m F
        { rec with calls := some (l1 ++ l2) } s2 with
      | error e => rfl
      | ok s3 =>
        dsimp only
        rw [processFuncs_congr _ _ ep em bl m fpost fpost
          (funcsNEquiv_refl fpost) hview]
        cases processFuncs
          (pre ++
            (m, fpre ++ (F, { rec with calls := some (l1 ++ l2) })
              :: fpost) :: post) ep em bl m fpost s3 with
        | error e => rfl
        | ok s4 =>
          exact processModules_congr _ _ ep em bl post post
            (dictNEquiv_refl post) hview s4

/-- C5 witness: removing the unresolvable call to `nope` leaves the
result of `create_cfg` unchanged on the concrete collection `c5dict`. -/
theorem c5_witness :
    c5rec.calls = some ([] ++ (⟨"X", "nope"⟩ : Call) :: []) ∧
    unresolvable c5dict "nope" ∧
    create_cfg c5dict "main" none [] =
      create_cfg [("m", [("g", { c5rec with calls := some ([] ++ []) })])]
        "main" none [] :=
  ⟨rfl, trivial,
   c5_unresolvable_call_removed "main" none [] [] [] "m" "g" [] [] c5rec
     [] [] ⟨"X", "nope"⟩ rfl trivial⟩

/-! Claim C7: idempotence.  First the structural invariant. -/

theorem hasNode_iff_mem_keys (g : Cfg) (n : String) :
    g.hasNode n = true ↔ n ∈ g.nodes.map Prod.fst := by
  unfold Cfg.hasNode
  rw [List.any_eq_true]
  constructor
  · rintro ⟨p, hp, hdec⟩
    exact List.mem_map.2 ⟨p, hp, of_decide_eq_true hdec⟩
  · intro h
    rcases List.mem_map.1 h with ⟨p, hp, rfl⟩
    exact ⟨p, hp, by simp⟩

theorem ginv_updateNode (g : Cfg) (n : String) (f : NodeAttrs → NodeAttrs)
    (h : GInv g) : GInv (g.updateNode n f) := by
  obtain ⟨h1, h2⟩ := h
  refine ⟨?_, ?_⟩
  · rw [keys_updateNode]
    exact h1
  · intro p hp
    rw [edges_updateNode] at hp
    rw [hasNode_updateNode, hasNode_updateNode]
    exact h2 p hp

theorem ginv_addBareNode (g : Cfg) (n : String) (h : GInv g) :
    GInv (g.addBareNode n) := by
  obtain ⟨h1, h2⟩ := h
  constructor
  · unfold Cfg.addBareNode
    by_cases hh : g.hasNode n
    · rw [if_pos hh]
      exact h1
    · rw [if_neg hh]
      have hn : n ∉ g.nodes.map Prod.fst :=
        fun hm => hh ((hasNode_iff_mem_keys g n).2 hm)
      show ((g.nodes ++ [(n, ({} : NodeAttrs))]).map Prod.fst).Nodup
      rw [List.map_append]
      rw [List.nodup_append]
      refine ⟨h1, List.nodup_singleton n, ?_⟩
      intro a ha hb
      simp only [List.map_cons, List.map_nil, List.mem_singleton] at hb
      subst hb
      exact hn ha
  · intro p hp
    rw [edges_addBareNode] at hp
    rw [hasNode_addBareNode, hasNode_addBareNode]
    obtain ⟨hu, hv⟩ := h2 p hp
    rw [hu, hv]
    simp

theorem ginv_addNodeWith (g : Cfg) (n : String) (f : NodeAttrs → NodeAttrs)
    (h : GInv g) : GInv (g.addNodeWith n f) := by
  unfold Cfg.addNodeWith
  by_cases hh : g.hasNode n
  · rw [if_pos hh]
    exact ginv_updateNode g n f h
  · rw [if_neg hh]
    obtain ⟨h1, h2⟩ := h
    constructor
    · have hn : n ∉ g.nodes.map Prod.fst :=
        fun hm => hh ((hasNode_iff_mem_keys g n).2 hm)
      show ((g.nodes ++ [(n, f {})]).map Prod.fst).Nodup
      rw [List.map_append, List.nodup_append]
      refine ⟨h1, List.nodup_singleton n, ?_⟩
      intro a ha hb
      simp only [List.map_cons, List.map_nil, List.mem_singleton] at hb
      subst hb
      exact hn ha
    · intro p hp
      have hp' : p ∈ g.edges := hp
      obtain ⟨hu, hv⟩ := h2 p hp'
      constructor
      · show (Cfg.mk (g.nodes ++ [(n, f {})]) g.edges).hasNode p.1 = true
        unfold Cfg.hasNode at hu ⊢
        rw [List.any_append, hu]
        rfl
      · show (Cfg.mk (g.nodes ++ [(n, f {})]) g.edges).hasNode p.2 = true
        unfold Cfg.hasNode at hv ⊢
        rw [List.any_append, hv]
        rfl

theorem ginv_addEdge (g : Cfg) (u v : String) (h : GInv g) :
    GInv (g.addEdge u v) := by
  have hg2 : GInv ((g.addBareNode u).addBareNode v) :=
    ginv_addBareNode _ v (ginv_addBareNode g u h)
  show GInv (if (u, v) ∈ ((g.addBareNode u).addBareNode v).edges
    then ((g.addBareNode u).addBareNode v)
    else { (g.addBareNode u).addBareNode v with
      edges := ((g.addBareNode u).addBareNode v).edges ++ [(u, v)] })
  by_cases hmem : (u, v) ∈ ((g.addBareNode u).addBareNode v).edges
  · rw [if_pos hmem]
    exact hg2
  · rw [if_neg hmem]
    obtain ⟨h1, h2⟩ := hg2
    refine ⟨h1, ?_⟩
    intro p hp
    rcases List.mem_append.1 hp with hold | hnew
    · exact h2 p hold
    · rcases List.mem_singleton.1 hnew with rfl
      constructor
      · show ((g.addBareNode u).addBareNode v).hasNode u = true
        rw [hasNode_addBareNode, hasNode_addBareNode]
        simp
      · show ((g.addBareNode u).addBareNode v).hasNode v = true
        rw [hasNode_addBareNode]
        simp

/-- Re-adding an edge already present between existing nodes is a
no-op: the graph is returned unchanged. -/
theorem addEdge_noop (g : Cfg) (u v : String) (hu : g.hasNode u = true)
    (hv : g.hasNode v = true) (he : (u, v) ∈ g.edges) :
    g.addEdge u v = g := by
  have h1 : g.addBareNode u = g := by
    unfold Cfg.addBareNode
    rw [if_pos hu]
  have h2 : g.addBareNode v = g := by
    unfold Cfg.addBareNode
    rw [if_pos hv]
  show (if (u, v) ∈ ((g.addBareNode u).addBareNode v).edges
    then ((g.addBareNode u).addBareNode v)
    else { (g.addBareNode u).addBareNode v with
      edges := ((g.addBareNode u).addBareNode v).edges ++ [(u, v)] }) = g
  rw [h1, h2, if_pos he]

theorem addEdgePair_nodup (es : List (String × String)) (e : String × String)
    (h : es.Nodup) : (addEdgePair es e).Nodup := by
  unfold addEdgePair
  by_cases hmem : e ∈ es
  · rw [if_pos hmem]
    exact h
  · rw [if_neg hmem]
    rw [List.nodup_append]
    refine ⟨h, List.nodup_singleton e, ?_⟩
    intro a ha hb
    rcases List.mem_singleton.1 hb with rfl
    exact hmem ha

theorem evFold_edges_nodup (l : List Ev) :
    ∀ es en, es.Nodup → (evFold (es, en) l).1.Nodup := by
  induction l with
  | nil => intro es en h; exact h
  | cons ev rest ih =>
    intro es en h
    rw [evFold_cons]
    have hstep : evStep (es, en) ev =
        (addEdgePair es (ev.src, ev.dst),
         if ev.chk && dstDeg (addEdgePair es (ev.src, ev.dst)) ev.src = 0
         then insertEntry en ev.src else en) := rfl
    rw [hstep]
    exact ih _ _ (addEdgePair_nodup es (ev.src, ev.dst) h)

theorem ginv_processNode1 (mod func : String) (g : Cfg) (label : String)
    (data : BlockData) (g' : Cfg)
    (h : processNode1 mod func g label data = .ok g') (hg : GInv g) :
    GInv g' := by
  unfold processNode1 at h
  cases hs : data.start_line with
  | none => rw [hs] at h; exact Except.noConfusion h
  | some sl =>
    cases he : data.end_line with
    | none => rw [hs, he] at h; exact Except.noConfusion h
    | some el =>
      cases hz : data.size with
      | none => rw [hs, he, hz] at h; exact Except.noConfusion h
      | some sz =>
        rw [hs, he, hz] at h
        dsimp only at h
        by_cases hc : (truthyInt sl && truthyInt el) = true
        · rw [if_pos hc] at h
          cases h
          exact ginv_updateNode _ _ _ (ginv_addNodeWith g _ _ hg)
        · rw [if_neg hc] at h
          cases h
          exact ginv_addNodeWith g _ _ hg

theorem ginv_processNodes (mod func : String) (l : List (String × BlockData)) :
    ∀ g g', processNodes mod func l g = .ok g' → GInv g → GInv g' := by
  induction l with
  | nil => intro g g' h hg; cases h; exact hg
  | cons p rest ih =>
    intro g g' h hg
    unfold processNodes at h
    cases hp : processNode1 mod func g p.1 p.2 with
    | error e => rw [hp] at h; exact Except.noConfusion h
    | ok g1 =>
      rw [hp] at h
      exact ih g1 g' h (ginv_processNode1 mod func g p.1 p.2 g1 hp hg)

theorem ginv_processEdges (ep : String) (em : Option String)
    (mod func : String) (l : List Edge) :
    ∀ g en, GInv g → GInv (processEdges ep em mod func l (g, en)).1 := by
  induction l with
  | nil => intro g en hg; exact hg
  | cons e rest ih =>
    intro g en hg
    have hstep : processEdges ep em mod func (e :: rest) (g, en) =
        processEdges ep em mod func rest
          (g.addEdge (create_cfg_node mod func e.src)
            (create_cfg_node mod func e.dst),
           if entryCond ep em mod func &&
               (g.addEdge (create_cfg_node mod func e.src)
                 (create_cfg_node mod func e.dst)).inDegree
                 (create_cfg_node mod func e.src) = 0 then
             insertEntry en (create_cfg_node mod func e.src)
           else en) := rfl
    rw [hstep]
    exact ih _ _ (ginv_addEdge g _ _ hg)

theorem ginv_processReturns (mod func caller callee : String)
    (rl : List String) :
    ∀ g, GInv g → GInv (processReturns mod func caller callee rl g) := by
  induction rl with
  | nil => intro g hg; exact hg
  | cons r rest ih =>
    intro g hg
    have hstep : processReturns mod func caller callee (r :: rest) g =
        processReturns mod func caller callee rest
          (g.addEdge (create_cfg_node mod callee r)
            (create_cfg_node mod func caller)) := rfl
    rw [hstep]
    exact ih _ (ginv_addEdge g _ _ hg)

theorem ginv_processCall (d : CfgDict) (ep : String) (em : Option String)
    (mod func : String) (c : Call) (g : Cfg) (en : List String)
    (hg : GInv g) : GInv (processCall d ep em mod func c (g, en)).1 := by
  unfold processCall
  cases hf : find_callee d c.dst with
  | none => exact hg
  | some cd =>
    dsimp only
    cases hent : cd.entry with
    | none => exact hg
    | some entryLabel =>
      dsimp only
      exact ginv_processReturns mod func c.src c.dst (cd.returns.getD []) _
        (ginv_addEdge g _ _ hg)

theorem ginv_processCalls (d : CfgDict) (ep : String) (em : Option String)
    (mod func : String) (l : List Call) :
    ∀ s : Cfg × List String, GInv s.1 →
      GInv (processCalls d ep em mod func l s).1 := by
  induction l with
  | nil => intro s hg; exact hg
  | cons c rest ih =>
    intro s hg
    have hstep : processCalls d ep em mod func (c :: rest) s =
        processCalls d ep em mod func rest
          (processCall d ep em mod func c s) := rfl
    rw [hstep]
    obtain ⟨g, en⟩ := s
    exact ih _ (ginv_processCall d ep em mod func c g en hg)

theorem ginv_processIndirectKeys (mod func : String) (ic : List String)
    (l : List String) :
    ∀ g, GInv g → GInv (processIndirectKeys mod func ic l g) := by
  induction l with
  | nil => intro g hg; exact hg
  | cons n rest ih =>
    intro g hg
    have hstep : processIndirectKeys mod func ic (n :: rest) g =
        processIndirectKeys mod func ic rest
          ((g.addBareNode (create_cfg_node mod func n)).updateNode
            (create_cfg_node mod func n)
            (fun a => { a with indirect_calls := some (ic.count n) })) := rfl
    rw [hstep]
    exact ih _ (ginv_updateNode _ _ _ (ginv_addBareNode g _ hg))

theorem ginv_processFunc (d : CfgDict) (ep : String) (em : Option String)
    (bl : List String) (mod func : String) (rec : FuncRec)
    (s s' : Cfg × List String)
    (h : processFunc d ep em bl mod func rec s = .ok s')
    (hg : GInv s.1) : GInv s'.1 := by
  unfold processFunc at h
  by_cases hbl : func ∈ bl
  · rw [if_pos hbl] at h
    cases h
    exact hg
  · rw [if_neg hbl] at h
    cases hn : processNodes mod func (rec.nodes.getD []) s.1 with
    | error e => rw [hn] at h; exact Except.noConfusion h
    | ok g =>
      rw [hn] at h
      dsimp only at h
      cases h
      show GInv (processIndirectKeys mod func (rec.indirect_calls.getD [])
        (dedupFirst (rec.indirect_calls.getD []))
        (processCalls d ep em mod func (rec.calls.getD [])
          (processEdges ep em mod func (rec.edges.getD []) (g, s.2))).1)
      apply ginv_processIndirectKeys
      exact ginv_processCalls d ep em mod func (rec.calls.getD []) _
        (ginv_processEdges ep em mod func (rec.edges.getD []) g s.2
          (ginv_processNodes mod func (rec.nodes.getD []) s.1 g hn hg))

theorem ginv_processFuncs (d : CfgDict) (ep : String) (em : Option String)
    (bl : List String) (mod : String) (l : List (String × FuncRec)) :
    ∀ s s', processFuncs d ep em bl mod l s = .ok s' →
      GInv s.1 → GInv s'.1 := by
  induction l with
  | nil => intro s s' h hg; cases h; exact hg
  | cons p rest ih =>
    obtain ⟨f, r⟩ := p
    intro s s' h hg
    unfold processFuncs at h
    cases hp : processFunc d ep em bl mod f r s with
    | error e => rw [hp] at h; exact Except.noConfusion h
    | ok s1 =>
      rw [hp] at h
      exact ih s1 s' h (ginv_processFunc d ep em bl mod f r s s1 hp hg)

theorem ginv_processModules (d : CfgDict) (ep : String) (em : Option String)
    (bl : List String) (l : CfgDict) :
    ∀ s s', processModules d ep em bl l s = .ok s' →
      GInv s.1 → GInv s'.1 := by
  induction l with
  | nil => intro s s' h hg; cases h; exact hg
  | cons p rest ih =>
    obtain ⟨m, fl⟩ := p
    intro s s' h hg
    unfold processModules at h
    cases hp : processFuncs d ep em bl m fl s with
    | error e => rw [hp] at h; exact Except.noConfusion h
    | ok s1 =>
      rw [hp] at h
      exact ih s1 s' h (ginv_processFuncs d ep em bl m fl s s1 hp hg)

theorem ginv_create_cfg (d : CfgDict) (ep : String) (em : Option String)
    (bl : List String) (g : Cfg) (en : List String)
    (h : create_cfg d ep em bl = .ok (g, en)) : GInv g := by
  have hbase : GInv ({} : Cfg) := by
    refine ⟨List.nodup_nil, ?_⟩
    intro p hp
    exact absurd hp (List.not_mem_nil p)
  exact ginv_processModules d ep em bl d ({}, []) (g, en) h hbase

/-! Lemmas on the dictionary-merging loop, towards idempotence of the
whole pipeline on duplicated input. -/

theorem lookupA_nil (f : String) : lookupA [] f = none := rfl

theorem lookupA_cons (f' : String) (r' : FuncRec)
    (rest : List (String × FuncRec)) (f : String) :
    lookupA ((f', r') :: rest) f =
      if f' = f then some r' else lookupA rest f := by
  by_cases h : f' = f <;> simp [lookupA, List.find?_cons, h]

theorem lookupA_eq_none (fl : List (String × FuncRec)) (f : String) :
    lookupA fl f = none ↔ f ∉ fl.map Prod.fst := by
  induction fl with
  | nil => simp [lookupA]
  | cons p rest ih =>
    obtain ⟨f', r'⟩ := p
    rw [lookupA_cons]
    by_cases h : f' = f
    · subst h
      simp
    · simp [h, Ne.symm h, ih]

theorem updAssoc_lookup (fl : List (String × FuncRec)) (f0 : String)
    (r0 : FuncRec) (f : String) :
    lookupA (updAssoc fl f0 r0) f =
      if f = f0 then some r0 else lookupA fl f := by
  induction fl with
  | nil =>
    rw [show updAssoc [] f0 r0 = [(f0, r0)] from rfl, lookupA_cons]
    by_cases h : f = f0
    · rw [if_pos h.symm, if_pos h]
    · rw [if_neg (fun hh => h hh.symm), if_neg h, lookupA_nil]
  | cons p rest ih =>
    obtain ⟨f', r'⟩ := p
    show lookupA (if f0 = f' then (f', r0) :: rest
      else (f', r') :: updAssoc rest f0 r0) f = _
    by_cases h1 : f0 = f'
    · rw [if_pos h1, lookupA_cons]
      by_cases h2 : f = f0
      · rw [if_pos (h1.symm.trans h2.symm), if_pos h2]
      · rw [if_neg (fun hh => h2 (h1.trans hh).symm), if_neg h2, lookupA_cons,
          if_neg (fun hh => h2 (h1.trans hh).symm)]
    · rw [if_neg h1, lookupA_cons, lookupA_cons, ih]
      by_cases h2 : f' = f
      · by_cases h3 : f = f0
        · exact absurd (h2.trans h3).symm h1
        · simp [h2, h3]
      · by_cases h3 : f = f0
        · simp [h2, h3, show ¬ (f' = f0) from fun hh => h2 (hh.trans h3.symm)]
        · simp [h2, h3]

theorem updAssoc_keys (fl : List (String × FuncRec)) (f0 : String)
    (r0 : FuncRec) :
    (updAssoc fl f0 r0).map Prod.fst =
      if f0 ∈ fl.map Prod.fst then fl.map Prod.fst
      else fl.map Prod.fst ++ [f0] := by
  induction fl with
  | nil => simp [updAssoc]
  | cons p rest ih =>
    obtain ⟨f', r'⟩ := p
    show (if f0 = f' then (f', r0) :: rest
      else (f', r') :: updAssoc rest f0 r0).map Prod.fst = _
    by_cases h : f0 = f'
    · rw [if_pos h]
      simp [h]
    · rw [if_neg h]
      simp only [List.map_cons]
      rw [ih]
      by_cases h2 : f0 ∈ rest.map Prod.fst <;> simp [h, h2, Ne.symm h]

theorem dictInsert_keys (d : CfgDict) (m0 f0 : String) (r0 : FuncRec) :
    (dictInsert d m0 f0 r0).map Prod.fst =
      if m0 ∈ d.map Prod.fst then d.map Prod.fst
      else d.map Prod.fst ++ [m0] := by
  induction d with
  | nil => simp [dictInsert]
  | cons p rest ih =>
    obtain ⟨m', fl⟩ := p
    show (if m0 = m' then (m', updAssoc fl f0 r0) :: rest
      else (m', fl) :: dictInsert rest m0 f0 r0).map Prod.fst = _
    by_cases h : m0 = m'
    · rw [if_pos h]
      simp [h]
    · rw [if_neg h]
      simp only [List.map_cons]
      rw [ih]
      by_cases h2 : m0 ∈ rest.map Prod.fst <;> simp [h, h2, Ne.symm h]

theorem modLookup_cons (m' : String) (fl : List (String × FuncRec))
    (rest : CfgDict) (m : String) :
    modLookup ((m', fl) :: rest) m =
      if m' = m then some fl else modLookup rest m := by
  by_cases h : m' = m <;> simp [modLookup, List.find?_cons, h]

theorem modLookup_eq_none (d : CfgDict) (m : String) :
    modLookup d m = none ↔ m ∉ d.map Prod.fst := by
  induction d with
  | nil => simp [modLookup]
  | cons p rest ih =>
    obtain ⟨m', fl⟩ := p
    rw [modLookup_cons]
    by_cases h : m' = m
    · subst h
      simp
    · simp [h, Ne.symm h, ih]

theorem modLookup_dictInsert (d : CfgDict) (m0 f0 : String) (r0 : FuncRec)
    (m : String) :
    modLookup (dictInsert d m0 f0 r0) m =
      if m = m0 then
        some (match modLookup d m0 with
          | some fl => updAssoc fl f0 r0
          | none => [(f0, r0)])
      else modLookup d m := by
  induction d with
  | nil =>
    show modLookup [(m0, [(f0, r0)])] m = _
    rw [modLookup_cons]
    rw [show modLookup ([] : CfgDict) m0 = none from rfl]
    by_cases h : m = m0
    · rw [if_pos h.symm, if_pos h]
    · rw [if_neg (fun hh => h hh.symm), if_neg h]
  | cons p rest ih =>
    obtain ⟨m', fl⟩ := p
    show modLookup (if m0 = m' then (m', updAssoc fl f0 r0) :: rest
      else (m', fl) :: dictInsert rest m0 f0 r0) m = _
    by_cases h1 : m0 = m'
    · rw [if_pos h1, modLookup_cons]
      rw [show modLookup ((m', fl) :: rest) m0 = some fl from by
        rw [modLookup_cons, if_pos h1.symm]]
      by_cases h2 : m' = m
      · rw [if_pos h2, if_pos (h1.trans h2).symm]
      · rw [if_neg h2, if_neg (fun hh => h2 (h1.symm.trans hh.symm)),
          modLookup_cons, if_neg h2]
    · rw [if_neg h1, modLookup_cons, ih]
      rw [show modLookup ((m', fl) :: rest) m0 = modLookup rest m0 from by
        rw [modLookup_cons, if_neg (fun hh => h1 hh.symm)]]
      rw [modLookup_cons]
      by_cases h2 : m' = m
      · by_cases h3 : m = m0
        · exact absurd (h2.trans h3).symm h1
        · simp [h2, h3]
      · by_cases h3 : m = m0
        · simp [h2, h3, show ¬ (m' = m0) from fun hh => h2 (hh.trans h3.symm)]
        · simp [h2, h3]

theorem funcLookup_eq (d : CfgDict) (m f : String) :
    funcLookup d m f =
      match modLookup d m with
      | none => none
      | some fl => lookupA fl f := rfl

theorem funcLookup_dictInsert (d : CfgDict) (m0 f0 : String) (r0 : FuncRec)
    (m f : String) :
    funcLookup (dictInsert d m0 f0 r0) m f =
      if m = m0 ∧ f = f0 then some r0 else funcLookup d m f := by
  rw [funcLookup_eq, modLookup_dictInsert]
  by_cases hm : m = m0
  · rw [if_pos hm]
    cases hd : modLookup d m0 with
    | none =>
      dsimp only
      rw [lookupA_cons]
      by_cases hf : f = f0
      · rw [if_pos hf.symm, if_pos ⟨hm, hf⟩]
      · rw [if_neg (fun hh => hf hh.symm), if_neg (fun hh => hf hh.2),
          lookupA_nil]
        have hnone : modLookup d m = none := by rw [hm, hd]
        rw [funcLookup_eq, hnone]
    | some fl =>
      dsimp only
      rw [updAssoc_lookup]
      by_cases hf : f = f0
      · rw [if_pos hf, if_pos ⟨hm, hf⟩]
      · rw [if_neg hf, if_neg (fun hh => hf hh.2)]
        have hsome : modLookup d m = some fl := by rw [hm, hd]
        rw [funcLookup_eq, hsome]
  · rw [if_neg hm, if_neg (fun hh => hm hh.1), funcLookup_eq]

theorem writesFold_cons (w : String × String × FuncRec)
    (ws : List (String × String × FuncRec)) (d : CfgDict) :
    writesFold (w :: ws) d =
      writesFold ws (dictInsert d w.1 w.2.1 w.2.2) := rfl

theorem funcLookup_writesFold (ws : List (String × String × FuncRec))
    (m f : String) : ∀ d : CfgDict,
    funcLookup (writesFold ws d) m f =
      (lastWrite ws m f).or (funcLookup d m f) := by
  induction ws with
  | nil => intro d; rfl
  | cons w ws ih =>
    intro d
    rw [writesFold_cons, ih, funcLookup_dictInsert]
    rw [show lastWrite (w :: ws) m f =
      (match lastWrite ws m f with
       | some r => some r
       | none => if w.1 = m ∧ w.2.1 = f then some w.2.2 else none) from rfl]
    cases hl : lastWrite ws m f with
    | some r => rfl
    | none =>
      by_cases hc : m = w.1 ∧ f = w.2.1
      · rw [if_pos hc, if_pos ⟨hc.1.symm, hc.2.symm⟩]
        rfl
      · rw [if_neg hc, if_neg (fun hh => hc ⟨hh.1.symm, hh.2.symm⟩)]

theorem lastWrite_mem (ws : List (String × String × FuncRec))
    (m f : String) (r : FuncRec) (h : (m, f, r) ∈ ws) :
    lastWrite ws m f ≠ none := by
  induction ws with
  | nil => cases h
  | cons w ws ih =>
    show (match lastWrite ws m f with
      | some r2 => some r2
      | none => if w.1 = m ∧ w.2.1 = f then some w.2.2 else none) ≠ none
    cases hl : lastWrite ws m f with
    | some r2 => simp
    | none =>
      rcases List.mem_cons.1 h with hw | hw
      · rw [← hw]
        rw [if_pos ⟨rfl, rfl⟩]
        simp
      · exact absurd hl (ih hw)

theorem writesFold_present (ws : List (String × String × FuncRec))
    (w : String × String × FuncRec) (h : w ∈ ws) :
    funcLookup (writesFold ws []) w.1 w.2.1 ≠ none := by
  rw [funcLookup_writesFold]
  have hlw : lastWrite ws w.1 w.2.1 ≠ none :=
    lastWrite_mem ws w.1 w.2.1 w.2.2 h
  cases hl : lastWrite ws w.1 w.2.1 with
  | none => exact absurd hl hlw
  | some r => simp [Option.or]

theorem funcLookup_dictInsert_ne_none (d : CfgDict) (m0 f0 : String)
    (r0 : FuncRec) (m f : String) (h : funcLookup d m f ≠ none) :
    funcLookup (dictInsert d m0 f0 r0) m f ≠ none := by
  rw [funcLookup_dictInsert]
  by_cases hc : m = m0 ∧ f = f0
  · rw [if_pos hc]
    simp
  · rw [if_neg hc]
    exact h

theorem skeleton_cons (m' : String) (fl : List (String × FuncRec))
    (rest : CfgDict) :
    skeleton ((m', fl) :: rest) = (m', fl.map Prod.fst) :: skeleton rest :=
  rfl

theorem skeleton_keys (d : CfgDict) :
    (skeleton d).map Prod.fst = d.map Prod.fst := by
  unfold skeleton
  rw [List.map_map]
  rfl

theorem skeleton_dictInsert (d : CfgDict) (m0 f0 : String) (r0 : FuncRec)
    (h : funcLookup d m0 f0 ≠ none) :
    skeleton (dictInsert d m0 f0 r0) = skeleton d := by
  induction d with
  | nil => exact absurd rfl h
  | cons p rest ih =>
    obtain ⟨m', fl⟩ := p
    show skeleton (if m0 = m' then (m', updAssoc fl f0 r0) :: rest
      else (m', fl) :: dictInsert rest m0 f0 r0) = _
    by_cases h1 : m0 = m'
    · rw [if_pos h1, skeleton_cons, skeleton_cons]
      have hml : modLookup ((m', fl) :: rest) m0 = some fl := by
        rw [modLookup_cons, if_pos h1.symm]
      have hlk : lookupA fl f0 ≠ none := by
        intro hz
        apply h
        rw [funcLookup_eq, hml]
        exact hz
      have hf0 : f0 ∈ fl.map Prod.fst := by
        by_cases hmem : f0 ∈ fl.map Prod.fst
        · exact hmem
        · exact absurd ((lookupA_eq_none fl f0).2 hmem) hlk
      rw [updAssoc_keys, if_pos hf0]
    · rw [if_neg h1, skeleton_cons, skeleton_cons]
      have hrest : funcLookup rest m0 f0 ≠ none := by
        intro hz
        apply h
        rw [funcLookup_eq, modLookup_cons, if_neg (fun hh => h1 hh.symm)]
        rw [funcLookup_eq] at hz
        exact hz
      rw [ih hrest]

theorem skeleton_writesFold (ws : List (String × String × FuncRec)) :
    ∀ d : CfgDict, (∀ w ∈ ws, funcLookup d w.1 w.2.1 ≠ none) →
      skeleton (writesFold ws d) = skeleton d := by
  induction ws with
  | nil => intro d _; rfl
  | cons w ws ih =>
    intro d h
    rw [writesFold_cons]
    rw [ih _ (fun w' hw' => funcLookup_dictInsert_ne_none d w.1 w.2.1 w.2.2
      w'.1 w'.2.1 (h w' (List.mem_cons_of_mem w hw')))]
    exact skeleton_dictInsert d w.1 w.2.1 w.2.2 (h w (List.mem_cons_self w ws))

theorem dictInsert_nodup (d : CfgDict) (m0 f0 : String) (r0 : FuncRec)
    (h : dictNodup d) : dictNodup (dictInsert d m0 f0 r0) := by
  induction d with
  | nil =>
    refine ⟨by simp [dictInsert], ?_⟩
    intro p hp
    rw [show dictInsert [] m0 f0 r0 = [(m0, [(f0, r0)])] from rfl] at hp
    rcases List.mem_singleton.1 hp with rfl
    simp
  | cons p rest ih =>
    obtain ⟨m', fl⟩ := p
    obtain ⟨hk, hin⟩ := h
    simp only [List.map_cons] at hk
    obtain ⟨hm', hkrest⟩ := List.nodup_cons.1 hk
    show dictNodup (if m0 = m' then (m', updAssoc fl f0 r0) :: rest
      else (m', fl) :: dictInsert rest m0 f0 r0)
    by_cases h1 : m0 = m'
    · rw [if_pos h1]
      constructor
      · simp only [List.map_cons]
        exact hk
      · intro p hp
        rcases List.mem_cons.1 hp with hp1 | hp1
        · rw [hp1]
          have hfl : (fl.map Prod.fst).Nodup :=
            hin (m', fl) (List.mem_cons_self _ _)
          by_cases h2 : f0 ∈ fl.map Prod.fst
          · rw [updAssoc_keys, if_pos h2]
            exact hfl
          · rw [updAssoc_keys, if_neg h2, List.nodup_append]
            refine ⟨hfl, List.nodup_singleton f0, ?_⟩
            intro a ha hb
            rcases List.mem_singleton.1 hb with rfl
            exact h2 ha
        · exact hin p (List.mem_cons_of_mem _ hp1)
    · rw [if_neg h1]
      have hrest : dictNodup rest :=
        ⟨hkrest, fun p hp => hin p (List.mem_cons_of_mem _ hp)⟩
      obtain ⟨ihk, ihin⟩ := ih hrest
      constructor
      · simp only [List.map_cons]
        rw [List.nodup_cons]
        refine ⟨?_, ihk⟩
        rw [dictInsert_keys]
        by_cases h2 : m0 ∈ rest.map Prod.fst
        · rw [if_pos h2]
          exact hm'
        · rw [if_neg h2]
          intro hmem
          rcases List.mem_append.1 hmem with hmem | hmem
          · exact hm' hmem
          · rcases List.mem_singleton.1 hmem with hh
            exact h1 hh.symm
      · intro p hp
        rcases List.mem_cons.1 hp with hp1 | hp1
        · rw [hp1]
          exact hin (m', fl) (List.mem_cons_self _ _)
        · exact ihin p hp1

theorem writesFold_nodup (ws : List (String × String × FuncRec)) :
    ∀ d : CfgDict, dictNodup d → dictNodup (writesFold ws d) := by
  induction ws with
  | nil => intro d h; exact h
  | cons w ws ih =>
    intro d h
    rw [writesFold_cons]
    exact ih _ (dictInsert_nodup d w.1 w.2.1 w.2.2 h)

theorem assoc_ext (fl1 : List (String × FuncRec)) :
    ∀ fl2 : List (String × FuncRec),
      fl1.map Prod.fst = fl2.map Prod.fst →
      (fl1.map Prod.fst).Nodup →
      (∀ f, lookupA fl1 f = lookupA fl2 f) → fl1 = fl2 := by
  induction fl1 with
  | nil =>
    intro fl2 hk _ _
    cases fl2 with
    | nil => rfl
    | cons q t => simp at hk
  | cons p t1 ih =>
    intro fl2 hk hnd hlk
    obtain ⟨f, r⟩ := p
    cases fl2 with
    | nil => simp at hk
    | cons q t2 =>
      obtain ⟨f2, r2⟩ := q
      simp only [List.map_cons] at hk
      injection hk with hf hkt
      subst hf
      have hr : r = r2 := by
        have hval := hlk f
        rw [lookupA_cons, lookupA_cons, if_pos rfl, if_pos rfl] at hval
        exact Option.some.inj hval
      subst hr
      simp only [List.map_cons] at hnd
      obtain ⟨hfn, hndt⟩ := List.nodup_cons.1 hnd
      have hlt : ∀ f', lookupA t1 f' = lookupA t2 f' := by
        intro f'
        by_cases hff : f' = f
        · subst hff
          rw [(lookupA_eq_none t1 f').2 hfn,
            (lookupA_eq_none t2 f').2 (hkt ▸ hfn)]
        · have hval := hlk f'
          rw [lookupA_cons, lookupA_cons, if_neg (fun hh => hff hh.symm),
            if_neg (fun hh => hff hh.symm)] at hval
          exact hval
      rw [ih t2 hkt hndt hlt]

theorem dict_ext (d1 : CfgDict) :
    ∀ d2 : CfgDict, skeleton d1 = skeleton d2 → dictNodup d1 →
      (∀ m f, funcLookup d1 m f = funcLookup d2 m f) → d1 = d2 := by
  induction d1 with
  | nil =>
    intro d2 hsk _ _
    cases d2 with
    | nil => rfl
    | cons q t => simp [skeleton] at hsk
  | cons p t1 ih =>
    intro d2 hsk hnd hlk
    obtain ⟨m, fl1⟩ := p
    cases d2 with
    | nil => simp [skeleton] at hsk
    | cons q t2 =>
      obtain ⟨m2, fl2⟩ := q
      rw [skeleton_cons, skeleton_cons] at hsk
      injection hsk with hh hskt
      injection hh with hm hkfl
      subst hm
      obtain ⟨hk, hin⟩ := hnd
      simp only [List.map_cons] at hk
      obtain ⟨hmn, hkt⟩ := List.nodup_cons.1 hk
      have hfl : fl1 = fl2 := by
        apply assoc_ext fl1 fl2 hkfl (hin (m, fl1) (List.mem_cons_self _ _))
        intro f
        have hval := hlk m f
        rw [funcLookup_eq, funcLookup_eq, modLookup_cons, modLookup_cons,
          if_pos rfl, if_pos rfl] at hval
        exact hval
      subst hfl
      have hlt : ∀ m' f, funcLookup t1 m' f = funcLookup t2 m' f := by
        intro m' f
        by_cases hmm' : m' = m
        · subst hmm'
          have hk2 : t2.map Prod.fst = t1.map Prod.fst := by
            have e := congrArg (List.map Prod.fst) hskt
            rw [skeleton_keys, skeleton_keys] at e
            exact e.symm
          have h1 : modLookup t1 m' = none := (modLookup_eq_none t1 m').2 hmn
          have h2 : modLookup t2 m' = none :=
            (modLookup_eq_none t2 m').2 (by rw [hk2]; exact hmn)
          rw [funcLookup_eq, funcLookup_eq, h1, h2]
        · have hval := hlk m' f
          rw [funcLookup_eq, funcLookup_eq, modLookup_cons, modLookup_cons,
            if_neg (fun hh => hmm' hh.symm),
            if_neg (fun hh => hmm' hh.symm)] at hval
          rw [funcLookup_eq, funcLookup_eq]
          exact hval
      have hndt : dictNodup t1 :=
        ⟨hkt, fun p hp => hin p (List.mem_cons_of_mem _ hp)⟩
      rw [ih t2 hskt hndt hlt]

theorem writesFold_replay (ws : List (String × String × FuncRec)) :
    writesFold ws (writesFold ws []) = writesFold ws [] := by
  have hnd0 : dictNodup ([] : CfgDict) :=
    ⟨List.nodup_nil, fun p hp => absurd hp (List.not_mem_nil p)⟩
  have hndD : dictNodup (writesFold ws []) := writesFold_nodup ws [] hnd0
  apply dict_ext
  · exact skeleton_writesFold ws (writesFold ws [])
      (fun w hw => writesFold_present ws w hw)
  · exact writesFold_nodup ws (writesFold ws []) hndD
  · intro m f
    rw [funcLookup_writesFold ws m f (writesFold ws []),
      funcLookup_writesFold ws m f []]
    cases hl : lastWrite ws m f <;> rfl

theorem innerFold_eq (mod : String) (l : List (String × FuncRec)) :
    ∀ d : CfgDict,
      l.foldl (fun d q => dictInsert d mod q.1 q.2) d =
        writesFold (l.map (fun q => (mod, q.1, q.2))) d := by
  induction l with
  | nil => intro d; rfl
  | cons q t ih => intro d; exact ih (dictInsert d mod q.1 q.2)

theorem mergeJsons_eq (js : List (String × List (String × FuncRec))) :
    mergeJsons js = writesFold (writesOf js) [] := by
  suffices h : ∀ d : CfgDict,
      js.foldl (fun d p =>
        p.2.foldl (fun d q => dictInsert d p.1 q.1 q.2) d) d =
        writesFold (writesOf js) d from h []
  induction js with
  | nil => intro d; rfl
  | cons p t ih =>
    intro d
    rw [List.foldl_cons, innerFold_eq p.1 p.2 d, ih]
    rw [show writesOf (p :: t) =
      p.2.map (fun q => (p.1, q.1, q.2)) ++ writesOf t from rfl]
    rw [show writesFold (p.2.map (fun q => (p.1, q.1, q.2)) ++ writesOf t) d =
      writesFold (writesOf t)
        (writesFold (p.2.map (fun q => (p.1, q.1, q.2))) d) from by
      unfold writesFold
      rw [List.foldl_append]]

theorem writesOf_append (a b : List (String × List (String × FuncRec))) :
    writesOf (a ++ b) = writesOf a ++ writesOf b := by
  unfold writesOf
  rw [List.map_append, List.flatten_append]

theorem mergeJsons_dup (js : List (String × List (String × FuncRec))) :
    mergeJsons (js ++ js) = mergeJsons js := by
  rw [mergeJsons_eq, mergeJsons_eq, writesOf_append]
  rw [show writesFold (writesOf js ++ writesOf js) [] =
    writesFold (writesOf js) (writesFold (writesOf js) []) from by
    unfold writesFold
    rw [List.foldl_append]]
  exact writesFold_replay (writesOf js)

/-- C7: building the graph from the same input twice yields the same
result as a single build (the merged dictionary deduplicates the
repeated files), a successfully built graph has no duplicate node keys
and no duplicate edges, and re-adding a present node or a present edge
returns the graph unchanged — a no-op, not an error and not a
duplicate. -/
theorem c7_idempotence (js : List (String × List (String × FuncRec)))
    (ep : String) (em : Option String) (bl : List String)
    (d : CfgDict) (g : Cfg) (en : List String)
    (h : create_cfg d ep em bl = .ok (g, en)) :
    create_cfg_from_jsons (js ++ js) ep em bl =
      create_cfg_from_jsons js ep em bl ∧
    (g.nodes.map Prod.fst).Nodup ∧
    g.edges.Nodup ∧
    (∀ n, g.hasNode n = true → g.addBareNode n = g) ∧
    (∀ u v, (u, v) ∈ g.edges → g.addEdge u v = g) := by
  have hginv : GInv g := ginv_create_cfg d ep em bl g en h
  obtain ⟨hnodes, hclosed⟩ := hginv
  refine ⟨?_, hnodes, ?_, ?_, ?_⟩
  · unfold create_cfg_from_jsons
    rw [mergeJsons_dup]
  · have hspec := create_cfg_spec d ep em bl g en h
    have hedges : g.edges = (evFold ([], []) (allEvs d ep em bl)).1 :=
      congrArg Prod.fst hspec
    rw [hedges]
    exact evFold_edges_nodup (allEvs d ep em bl) [] [] List.nodup_nil
  · intro n hn
    unfold Cfg.addBareNode
    rw [if_pos hn]
  · intro u v he
    obtain ⟨hu, hv⟩ := hclosed (u, v) he
    exact addEdge_noop g u v hu hv he

theorem c7_witness :
    create_cfg [] "main" none [] =
      Except.ok (({} : Cfg), ([] : List String)) ∧
    (create_cfg_from_jsons
        ([("m", [("f", ({ module := "m" } : FuncRec))]),
          ("m", [("f", ({ module := "m" } : FuncRec))])]) "main" none [] =
      create_cfg_from_jsons
        [("m", [("f", ({ module := "m" } : FuncRec))])] "main" none [] ∧
     ((({} : Cfg)).nodes.map Prod.fst).Nodup ∧
     (({} : Cfg)).edges.Nodup ∧
     (∀ n, (({} : Cfg)).hasNode n = true →
       (({} : Cfg)).addBareNode n = ({} : Cfg)) ∧
     (∀ u v, (u, v) ∈ (({} : Cfg)).edges →
       (({} : Cfg)).addEdge u v = ({} : Cfg))) :=
  ⟨rfl, c7_idempotence [("m", [("f", ({ module := "m" } : FuncRec))])]
    "main" none [] [] {} [] rfl⟩
